import Mathlib

/-!
LIFL_IE: a leaky integrate-and-fire neuron with spike latency and
intrinsic-excitability plasticity.

Shallow embedding of `lifl_psc_exp_ie.cpp` (class `mynest::lifl_psc_exp_ie`).

Conventions of the embedding.

* A C++ `double` is an element of a linearly ordered field `α` with a floor
  function; arithmetic is exact (rounding of IEEE doubles is not modelled).
  All definitions are computable at `α = ℚ`.
* Division by zero gives `inf` or `NaN` in C++ and 0 in a field; a theorem
  that reads a quotient off the model assumes the divisor is not zero where
  the two differ.
* `std::exp` is a parameter `exp : α → α` of the functions that call it;
  theorems that need its properties are stated over `ℝ` with `Real.exp`.
* A `double` converted to `long` or `int` is truncated toward zero
  (`truncToInt`); the conversion is only defined in C++ when the value fits,
  which is assumed.
* A `DictionaryDatum` is a record of optional entries, one per key the model
  reads; `updateValue` is the NEST helper that overwrites a variable when the
  key is present and reports whether it did.
* `throw nest::BadProperty(..)` is `Except.error`.
* An out-of-range `operator[]` on `t_lastspike_` is undefined behaviour in
  C++; the embedding returns `none` there.
-/

namespace LIFL

/-! ## Data model -/

/-- Exceptions raised by the setters. -/
inductive Exn where
  | BadProperty (msg : String)
  deriving DecidableEq, Repr

/-- The entries of a status dictionary that `Parameters_::set` and
`State_::set` look up. `none` means the key is absent. -/
structure Dict (α : Type) where
  E_L : Option α := none
  V_reset : Option α := none
  V_th : Option α := none
  I_e : Option α := none
  C_m : Option α := none
  tau_m : Option α := none
  tau_syn_ex : Option α := none
  tau_syn_in : Option α := none
  t_ref : Option α := none
  lambda : Option α := none
  tau : Option α := none
  stimulator : Option (List Int) := none
  std_mod : Option Bool := none
  V_m : Option α := none
  soma_exc : Option α := none

/-- NEST helper `updateValue<T>(d, name, var)`: when the key is present the
variable takes its value and the result is `true`; otherwise the variable is
kept and the result is `false`. The pair is (found, new value of var). -/
def updateValue {T : Type} (entry : Option T) (var : T) : Bool × T :=
  match entry with
  | some v => (true, v)
  | none => (false, var)

/-- Modelled from the spec: the declaration of `Parameters_` is in the header
`lifl_psc_exp_ie.h`, which is not among the sources. The members are those
that `lifl_psc_exp_ie.cpp` initialises and uses; the numeric ones are
`double`, `stimulator_` is the `std::vector< long >` of modulator gids. -/
structure Parameters_ (α : Type) where
  Tau_ : α
  C_ : α
  t_ref_ : α
  E_L_ : α
  I_e_ : α
  Theta_ : α
  V_reset_ : α
  tau_ex_ : α
  tau_in_ : α
  dt : α
  lambda : α
  tau : α
  std_mod : Bool
  stimulator_ : List Int

/-- Modelled from the spec: the declaration of `State_` is in the header
`lifl_psc_exp_ie.h`, which is not among the sources. The members are those
that `lifl_psc_exp_ie.cpp` uses. `r_ref_` is an integer counter; the history
`hist_` is the sequence of spike times in ms of the spec and `t_lastspike_`
holds one time stamp in ms per modulator, both with `double` entries. -/
structure State_ (α : Type) where
  i_0_ : α
  i_1_ : α
  i_syn_ex_ : α
  i_syn_in_ : α
  V_m_ : α
  r_ref_ : Int
  Vpositive : α
  enhancement : α
  t_lastspike_ : List α
  hist_ : List α

section Model

variable {α : Type} [LinearOrderedField α]

/-- Default constructor `Parameters_::Parameters_()`. -/
def Parameters_.default : Parameters_ α :=
  { Tau_ := 10, C_ := 250, t_ref_ := 2, E_L_ := -70, I_e_ := 0,
    Theta_ := -55 - (-70), V_reset_ := -70 - (-70),
    tau_ex_ := 2, tau_in_ := 2, dt := 0, lambda := 1 / 10000,
    tau := 25 / 2, std_mod := true, stimulator_ := [] }

/-- Default constructor `State_::State_()`. The members `i_1_` and
`Vpositive` are not in the initialiser list of the source; the embedding
takes their start values as arguments. -/
def State_.default (i_1_init Vpositive_init : α) : State_ α :=
  { i_0_ := 0, i_1_ := i_1_init, i_syn_ex_ := 0, i_syn_in_ := 0, V_m_ := 0,
    r_ref_ := 0, Vpositive := Vpositive_init, enhancement := 1,
    t_lastspike_ := [], hist_ := [] }

/-! ## Parameter and state setters -/

/-- The assignments of `Parameters_::set` (source lines 160-193), before any
validation: the record after the dictionary has been applied, and
`delta_EL`. -/
def Parameters_.assign (p : Parameters_ α) (d : Dict α) : Parameters_ α × α :=
  let ELold := p.E_L_
  let p := { p with E_L_ := (updateValue d.E_L p.E_L_).2 }
  let delta_EL := p.E_L_ - ELold
  let p :=
    if (updateValue d.V_reset p.V_reset_).1 then
      { p with V_reset_ := (updateValue d.V_reset p.V_reset_).2 - p.E_L_ }
    else
      { p with V_reset_ := p.V_reset_ - delta_EL }
  let p :=
    if (updateValue d.V_th p.Theta_).1 then
      { p with Theta_ := (updateValue d.V_th p.Theta_).2 - p.E_L_ }
    else
      { p with Theta_ := p.Theta_ - delta_EL }
  let p := { p with I_e_ := (updateValue d.I_e p.I_e_).2 }
  let p := { p with C_ := (updateValue d.C_m p.C_).2 }
  let p := { p with Tau_ := (updateValue d.tau_m p.Tau_).2 }
  let p := { p with tau_ex_ := (updateValue d.tau_syn_ex p.tau_ex_).2 }
  let p := { p with tau_in_ := (updateValue d.tau_syn_in p.tau_in_).2 }
  let p := { p with t_ref_ := (updateValue d.t_ref p.t_ref_).2 }
  let p := { p with lambda := (updateValue d.lambda p.lambda).2 }
  let p := { p with tau := (updateValue d.tau p.tau).2 }
  let p := { p with stimulator_ := (updateValue d.stimulator p.stimulator_).2 }
  let p := { p with std_mod := (updateValue d.std_mod p.std_mod).2 }
  (p, delta_EL)

/-- `Parameters_::set`: apply the dictionary, then validate (source lines
196-212); returns the updated record and `delta_EL`. -/
def Parameters_.set (p : Parameters_ α) (d : Dict α) :
    Except Exn (Parameters_ α × α) :=
  let q := (p.assign d).1
  let delta_EL := (p.assign d).2
  if q.V_reset_ ≥ q.Theta_ then
    .error (.BadProperty "Reset potential must be smaller than threshold.")
  else if q.C_ ≤ 0 then
    .error (.BadProperty "Capacitance must be strictly positive.")
  else if q.Tau_ ≤ 0 ∨ q.tau_ex_ ≤ 0 ∨ q.tau_in_ ≤ 0 then
    .error (.BadProperty
      "Membrane and synapse time constants must be strictly positive.")
  else if q.t_ref_ < 0 then
    .error (.BadProperty "Refractory time must not be negative.")
  else
    .ok (q, delta_EL)

/-- `State_::set`. It has no validation and never throws. -/
def State_.set (s : State_ α) (d : Dict α) (p : Parameters_ α) (delta_EL : α) :
    State_ α :=
  let s :=
    if (updateValue d.V_m s.V_m_).1 then
      { s with V_m_ := (updateValue d.V_m s.V_m_).2 - p.E_L_ }
    else
      { s with V_m_ := s.V_m_ - delta_EL }
  { s with enhancement := (updateValue d.soma_exc s.enhancement).2 }

/-- What `Parameters_::get` reports for the threshold, `V_th`. -/
def Parameters_.get_V_th (p : Parameters_ α) : α := p.Theta_ + p.E_L_

/-- What `Parameters_::get` reports for the reset potential, `V_reset`. -/
def Parameters_.get_V_reset (p : Parameters_ α) : α := p.V_reset_ + p.E_L_

/-- What `State_::get` reports for the membrane potential, `V_m`. -/
def State_.get_V_m (s : State_ α) (p : Parameters_ α) : α := s.V_m_ + p.E_L_

/-! ## Variables, buffers, events and the node -/

end Model

/-- Modelled from the spec: the declaration of `Variables_` is in the header
`lifl_psc_exp_ie.h`, which is not among the sources. The members are the
propagators and the refractory step count set by `calibrate`, and the two
spike inputs last read from the buffers. -/
structure Variables_ (α : Type) where
  P11ex_ : α
  P11in_ : α
  P22_ : α
  P21ex_ : α
  P21in_ : α
  P20_ : α
  RefractoryCounts_ : Int
  weighted_spikes_ex_ : α
  weighted_spikes_in_ : α

/-- NEST kernel `RingBuffer`, seen through the offset relative to the current
slice: `buffer_ offs` is the value accumulated for that step. -/
structure RingBuffer (α : Type) where
  buffer_ : Int → α

/-- Modelled from the spec: the declaration of `Buffers_` is in the header
`lifl_psc_exp_ie.h`, which is not among the sources. `currents_` has the two
channels that `calibrate` gives it (`B_.currents_.resize( 2 )`); the data
logger is left out. -/
structure Buffers_ (α : Type) where
  spikes_ex_ : RingBuffer α
  spikes_in_ : RingBuffer α
  currents_0 : RingBuffer α
  currents_1 : RingBuffer α

/-- The fields of a `nest::SpikeEvent` that `handle` reads. -/
structure SpikeEvent (α : Type) where
  weight : α
  multiplicity : Int
  rel_delivery_steps : Int
  sender_gid : Int
  stamp_ms : α

/-- The fields of a `nest::CurrentEvent` that `handle` reads. -/
structure CurrentEvent (α : Type) where
  weight : α
  current : α
  rport : Int
  rel_delivery_steps : Int

/-- One spike handed to the kernel: the step given to `set_spiketime` and the
lag given to `event_delivery_manager.send`. -/
structure Emitted where
  spiketime_step : Int
  lag : Int
  deriving DecidableEq, Repr

/-- The node: `P_`, `S_`, `V_`, `B_`, the `last_spike_` time kept by
`Archiving_Node`, and the log of the spikes emitted so far. -/
structure Node (α : Type) where
  P_ : Parameters_ α
  S_ : State_ α
  V_ : Variables_ α
  B_ : Buffers_ α
  last_spike_ : α
  emitted : List Emitted

section Dynamics

variable {α : Type} [LinearOrderedField α]

/-- `RingBuffer::add_value`: accumulate into the slot of an offset. -/
def RingBuffer.add_value (b : RingBuffer α) (offs : Int) (v : α) : RingBuffer α :=
  { buffer_ := fun i => if i = offs then b.buffer_ i + v else b.buffer_ i }

/-- `RingBuffer::get_value`: read the slot of an offset and clear it. -/
def RingBuffer.get_value (b : RingBuffer α) (offs : Int) : α × RingBuffer α :=
  (b.buffer_ offs, { buffer_ := fun i => if i = offs then 0 else b.buffer_ i })

/-- `nest::Time::step( s ).get_ms()` for the kernel resolution `res` (ms per
step). -/
def stepToMs (res : α) (s : Int) : α := (s : α) * res

/-- `Archiving_Node::set_spiketime` followed by
`event_delivery_manager.send( *this, se, lag )`, as far as the model observes
them: `last_spike_` becomes the time of the step, and the spike is logged. -/
def Node.emit (n : Node α) (res : α) (step lag : Int) : Node α :=
  { n with last_spike_ := stepToMs res step,
           emitted := n.emitted ++ [{ spiketime_step := step, lag := lag }] }

/-- `Archiving_Node::get_spiketime_ms`. -/
def Node.get_spiketime_ms (n : Node α) : α := n.last_spike_

/-! ## update -/

/-- Source lines 370-381 of `update`: the peak check at the top of a step. -/
def peak_check (res : α) (origin lag : Int) (n : Node α) : Node α :=
  if n.S_.V_m_ ≥ 105 then
    let n := { n with S_ := { n.S_ with V_m_ := 105 } }
    let n := n.emit res (origin + lag + 1) lag
    let n := { n with S_ := { n.S_ with r_ref_ := n.V_.RefractoryCounts_ } }
    { n with S_ := { n.S_ with hist_ := n.S_.hist_ ++ [n.get_spiketime_ms] } }
  else
    n

/-- Source lines 387-404 of `update`: the spike-latency branch. -/
def latency_branch (res : α) (origin lag : Int) (n : Node α) : Node α :=
  let n := { n with S_ := { n.S_ with Vpositive := n.S_.V_m_ / 15 } }
  let n := { n with S_ := { n.S_ with V_m_ :=
    n.S_.V_m_ + ((n.S_.Vpositive - 1) ^ 2 * n.P_.dt)
      / (1 - (n.S_.Vpositive - 1) * n.P_.dt) * 15 } }
  if n.S_.V_m_ ≥ 105 then
    let n := { n with S_ := { n.S_ with V_m_ := 105 } }
    let n := n.emit res (origin + lag + 1) lag
    let n := { n with S_ := { n.S_ with r_ref_ := n.V_.RefractoryCounts_ } }
    { n with S_ := { n.S_ with hist_ := n.S_.hist_ ++ [(lag : α)] } }
  else
    n

/-- Source lines 383-416 of `update`: evolve the membrane potential, or count
down the refractory period. -/
def membrane_update (res : α) (origin lag : Int) (n : Node α) : Node α :=
  if n.S_.r_ref_ = 0 then
    if n.S_.V_m_ > 15.6 then
      latency_branch res origin lag n
    else
      { n with S_ := { n.S_ with V_m_ :=
        n.S_.V_m_ * n.V_.P22_ + n.S_.i_syn_in_ * n.V_.P21in_
          + (n.S_.i_syn_ex_ * n.V_.P21ex_ + (n.P_.I_e_ + n.S_.i_0_) * n.V_.P20_)
            * n.S_.enhancement } }
  else
    let n := { n with S_ := { n.S_ with r_ref_ := n.S_.r_ref_ - 1 } }
    { n with S_ := { n.S_ with V_m_ := 0.1 } }

/-- Source lines 418-436 of `update`: synaptic currents, buffered spikes and
the new input currents. -/
def synaptic_update (lag : Int) (n : Node α) : Node α :=
  let n := { n with S_ := { n.S_ with i_syn_ex_ := n.S_.i_syn_ex_ * n.V_.P11ex_ } }
  let n := { n with S_ := { n.S_ with i_syn_in_ := n.S_.i_syn_in_ * n.V_.P11in_ } }
  let n := { n with S_ := { n.S_ with i_syn_ex_ :=
    n.S_.i_syn_ex_ + (1 - n.V_.P11ex_) * n.S_.i_1_ } }
  let n := { n with
    V_ := { n.V_ with weighted_spikes_ex_ := (n.B_.spikes_ex_.get_value lag).1 },
    B_ := { n.B_ with spikes_ex_ := (n.B_.spikes_ex_.get_value lag).2 } }
  let n := { n with
    V_ := { n.V_ with weighted_spikes_in_ := (n.B_.spikes_in_.get_value lag).1 },
    B_ := { n.B_ with spikes_in_ := (n.B_.spikes_in_.get_value lag).2 } }
  let n := { n with S_ := { n.S_ with i_syn_ex_ :=
    n.S_.i_syn_ex_ + n.V_.weighted_spikes_ex_ } }
  let n := { n with S_ := { n.S_ with i_syn_in_ :=
    n.S_.i_syn_in_ + n.V_.weighted_spikes_in_ } }
  let n := { n with
    S_ := { n.S_ with i_0_ := (n.B_.currents_0.get_value lag).1 },
    B_ := { n.B_ with currents_0 := (n.B_.currents_0.get_value lag).2 } }
  { n with
    S_ := { n.S_ with i_1_ := (n.B_.currents_1.get_value lag).1 },
    B_ := { n.B_ with currents_1 := (n.B_.currents_1.get_value lag).2 } }

/-- One iteration of the loop of `update` (source lines 370-439), at loop
index `lag`; the data logger is not modelled. -/
def update_step (res : α) (origin lag : Int) (n : Node α) : Node α :=
  synaptic_update lag (membrane_update res origin lag (peak_check res origin lag n))

/-- The loop `for ( long lag = from; lag < to; ++lag )` with `k` iterations
left. -/
def update_loop (res : α) (origin : Int) : Nat → Int → Node α → Node α
  | 0, _, n => n
  | k + 1, lag, n => update_loop res origin k (lag + 1) (update_step res origin lag n)

/-- `lifl_psc_exp_ie::update( origin, from, to )`; `origin` is
`origin.get_steps()` and `res` the kernel resolution in ms. The two
assertions on the step range are the contract of the caller and are not
checked here: the loop runs `to - from` times, and not at all when
`to <= from`. -/
def update (res : α) (origin from_ to_ : Int) (n : Node α) : Node α :=
  update_loop res origin (to_ - from_).toNat from_ n

/-! ## Helpers of the event handlers -/

/-- `std::find_if( r, std::end( hist_ ), pred )`. An iterator into `hist_` is
the part of the vector from its position on; `std::end` is `[]`, `*r` the
head and `std::next( r )` the tail. -/
def find_if (pred : α → Bool) : List α → List α
  | [] => []
  | x :: rest => if pred x then x :: rest else find_if pred rest

/-- The `while ( r != std::end( S_.hist_ ) )` loop of `handle( SpikeEvent& )`
(source lines 498-506), started at iterator `r` with enhancement `enh`;
`last` is `S_.t_lastspike_[ i ]`. Returns the enhancement after the loop. -/
def ie_while (exp : α → α) (tau lambda last t_spike : α) (pred : α → Bool)
    (r : List α) (enh : α) : α :=
  match r with
  | [] => enh
  | h :: rest =>
    let enh := enh + exp ((last - h) / tau) * lambda
    let enh := enh - exp ((h - t_spike) / tau) * lambda
    ie_while exp tau lambda last t_spike pred (find_if pred rest) enh
termination_by r.length
decreasing_by
  have hle : ∀ l : List α, (find_if pred l).length ≤ l.length := by
    intro l
    induction l with
    | nil => simp [find_if]
    | cons x xs ih =>
      unfold find_if
      split
      · exact le_rfl
      · exact Nat.le_succ_of_le ih
  have := hle rest
  simp only [List.length_cons]
  omega

/-- `lifl_psc_exp_ie::handle( nest::CurrentEvent& )`. -/
def handle_current (e : CurrentEvent α) (n : Node α) : Node α :=
  let c := e.current
  let w := e.weight
  let n :=
    if 0 = e.rport then
      { n with B_ := { n.B_ with currents_0 :=
        n.B_.currents_0.add_value e.rel_delivery_steps (w * c) } }
    else n
  if 1 = e.rport then
    { n with B_ := { n.B_ with currents_1 :=
      n.B_.currents_1.add_value e.rel_delivery_steps (w * c) } }
  else n

/-! ## set_status -/

/-- Modelled from the spec: `lifl_psc_exp_ie::set_status` is defined in the
header `lifl_psc_exp_ie.h`, which is not among the sources. The setter
applies the dictionary to temporary copies, validates, and commits only on
success; the shape is that of `aeif_psc_exp_peak::set_status` in
`aeif_psc_exp_peak.h`, with `delta_EL` passed from `Parameters_::set` to
`State_::set`. `arch` stands for `Archiving_Node::set_status`, which may
throw. The result is the node after the call and the exception thrown, if
any. -/
def set_status (arch : Dict α → Except Exn Unit) (n : Node α) (d : Dict α) :
    Node α × Option Exn :=
  match n.P_.set d with
  | .error ex => (n, some ex)
  | .ok (ptmp, delta_EL) =>
    let stmp := n.S_.set d ptmp delta_EL
    match arch d with
    | .error ex => (n, some ex)
    | .ok _ => ({ n with P_ := ptmp, S_ := stmp }, none)

end Dynamics

/-! ## Event handlers -/

section Events

variable {α : Type} [LinearOrderedField α] [FloorRing α]

/-- Conversion of a `double` to `long` or `int`: truncation toward zero. -/
def truncToInt (x : α) : Int := if 0 ≤ x then ⌊x⌋ else ⌈x⌉

/-- Body of `if ( source_gid == modulator )` in `handle( SpikeEvent& )` for
stimulator index `i` (source lines 489-508). The lambda of the source takes
its argument as `int` and compares it with `long lstspk`. -/
def ie_modulator (exp : α → α) (t_spike : α) (i : Nat) (n : Node α) :
    Option (Node α) :=
  match n.S_.t_lastspike_[i]? with
  | none => none
  | some last =>
    let lstspk : Int := truncToInt last
    let pred : α → Bool := fun its => decide (truncToInt its > lstspk)
    let r := find_if pred n.S_.hist_
    let enh := ie_while exp n.P_.tau n.P_.lambda last t_spike pred r
      n.S_.enhancement
    some { n with S_ := { n.S_ with
      enhancement := enh,
      t_lastspike_ := n.S_.t_lastspike_.set i t_spike } }

/-- The loop `for ( size_t i = 0; i < origSize; i++ )` of
`handle( SpikeEvent& )` with `k` iterations left, at index `i`. -/
def ie_for (exp : α → α) (e : SpikeEvent α) : Nat → Nat → Node α → Option (Node α)
  | 0, _, n => some n
  | k + 1, i, n =>
    match n.P_.stimulator_[i]? with
    | none => none
    | some modulator =>
      let source_gid := e.sender_gid
      if source_gid = modulator then
        match ie_modulator exp e.stamp_ms i n with
        | none => none
        | some n1 => ie_for exp e k (i + 1) n1
      else
        ie_for exp e k (i + 1) n

/-- First part of `handle( nest::SpikeEvent& )` (source lines 448-459): the
weighted spike goes to the excitatory or to the inhibitory buffer. -/
def buffer_spike (e : SpikeEvent α) (n : Node α) : Node α :=
  if e.weight ≥ 0 then
    { n with B_ := { n.B_ with spikes_ex_ :=
      n.B_.spikes_ex_.add_value e.rel_delivery_steps (e.weight * e.multiplicity) } }
  else
    { n with B_ := { n.B_ with spikes_in_ :=
      n.B_.spikes_in_.add_value e.rel_delivery_steps (e.weight * e.multiplicity) } }

/-- `lifl_psc_exp_ie::handle( nest::SpikeEvent& )`. The assertion on the
delay of the event is the contract of the caller and is not checked. -/
def handle_spike (exp : α → α) (e : SpikeEvent α) (n : Node α) : Option (Node α) :=
  let n := buffer_spike e n
  if n.P_.std_mod then
    let origSize := n.P_.stimulator_.length
    ie_for exp e origSize 0 n
  else
    some n

/-! ## Runs -/

/-- What the kernel does to a node during a run: a call of `update`, the
delivery of a spike, the delivery of a current. -/
inductive Op (α : Type) where
  | update (origin from_ to_ : Int)
  | spike (e : SpikeEvent α)
  | current (e : CurrentEvent α)

/-- Apply a sequence of kernel operations to a node, in order. -/
def run (exp : α → α) (res : α) : List (Op α) → Node α → Option (Node α)
  | [], n => some n
  | Op.update origin from_ to_ :: ops, n => run exp res ops (update res origin from_ to_ n)
  | Op.spike e :: ops, n =>
    match handle_spike exp e n with
    | none => none
    | some n1 => run exp res ops n1
  | Op.current e :: ops, n => run exp res ops (handle_current e n)

/-- Number of iterations of the loop of `update` that an operation performs:
`to - from` for a call of `update`, none for the delivery of an event. -/
def Op.steps : Op α → Nat
  | .update _ from_ to_ => (to_ - from_).toNat
  | .spike _ => 0
  | .current _ => 0

/-- Number of update steps performed by a sequence of operations. -/
def totalSteps (ops : List (Op α)) : Nat := (ops.map Op.steps).sum

end Events

/-! ## calibrate -/

section Calibrate

variable {α : Type} [LinearOrderedField α]

/-- The loop at the end of `calibrate` (source lines 352-356) with `k`
iterations left: `S_.t_lastspike_.push_back( 0.0 )`. -/
def calibrate_init : Nat → List α → List α
  | 0, t_lastspike_ => t_lastspike_
  | k + 1, t_lastspike_ => calibrate_init k (t_lastspike_ ++ [0])

/-- `lifl_psc_exp_ie::calibrate`. `h` is
`nest::Time::get_resolution().get_ms()` and `exp` is `std::exp`.
`propagator_32` (libnestutil, `propagator_stability.h`) and `ms_to_steps`,
the conversion `nest::Time( nest::Time::ms( t ) ).get_steps()`, are NEST
kernel code and are parameters. `B_.currents_.resize( 2 )` gives the two
channels that `Buffers_` always has, the logger is not modelled, and the
assertion `RefractoryCounts_ >= 0` is not checked. -/
def calibrate (exp : α → α) (propagator_32 : α → α → α → α → α)
    (ms_to_steps : α → Int) (h : α) (n : Node α) : Node α :=
  let n := { n with P_ := { n.P_ with dt := h } }
  let n := { n with V_ := { n.V_ with P11ex_ := exp (-h / n.P_.tau_ex_) } }
  let n := { n with V_ := { n.V_ with P11in_ := exp (-h / n.P_.tau_in_) } }
  let n := { n with V_ := { n.V_ with P22_ := exp (-h / n.P_.Tau_) } }
  let n := { n with V_ := { n.V_ with
    P21ex_ := propagator_32 n.P_.tau_ex_ n.P_.Tau_ n.P_.C_ h } }
  let n := { n with V_ := { n.V_ with
    P21in_ := propagator_32 n.P_.tau_in_ n.P_.Tau_ n.P_.C_ h } }
  let n := { n with V_ := { n.V_ with P20_ := n.P_.Tau_ / n.P_.C_ * (1 - n.V_.P22_) } }
  let n := { n with V_ := { n.V_ with RefractoryCounts_ := ms_to_steps n.P_.t_ref_ } }
  let n_stims := n.P_.stimulator_.length
  { n with S_ := { n.S_ with t_lastspike_ := calibrate_init n_stims n.S_.t_lastspike_ } }

/-- The resting situation of scenario A: potential at rest, no synaptic or
input current, not refractory, no external current, and nothing in any
buffer. -/
def Node.atRest (n : Node α) : Prop :=
  n.S_.V_m_ = 0 ∧ n.S_.i_syn_ex_ = 0 ∧ n.S_.i_syn_in_ = 0 ∧ n.S_.i_0_ = 0 ∧
  n.S_.i_1_ = 0 ∧ n.S_.r_ref_ = 0 ∧ n.P_.I_e_ = 0 ∧
  (∀ k, n.B_.spikes_ex_.buffer_ k = 0) ∧ (∀ k, n.B_.spikes_in_.buffer_ k = 0) ∧
  (∀ k, n.B_.currents_0.buffer_ k = 0) ∧ (∀ k, n.B_.currents_1.buffer_ k = 0)

end Calibrate

/-! ## Concrete inputs

Instances used to evaluate the model. The propagators are given directly
(`P22_ = 9/10` and `P20_ = Tau_ / C_ * (1 - P22_)` for the default
`Tau_ = 10`, `C_ = 250`); the resolution is 1/10 ms. -/

section Inputs

variable {α : Type} [LinearOrderedField α]

/-- Buffers with nothing in them. -/
def emptyBuffers : Buffers_ α :=
  { spikes_ex_ := { buffer_ := fun _ => 0 }, spikes_in_ := { buffer_ := fun _ => 0 },
    currents_0 := { buffer_ := fun _ => 0 }, currents_1 := { buffer_ := fun _ => 0 } }

/-- A node at rest (default state, `i_1_ = 0`) with default parameters apart
from the external current `I_e` and the calibrated values `dt = 1/10` and
`RefractoryCounts_ = N`. -/
def restNode (I_e : α) (N : Int) : Node α :=
  { P_ := { (Parameters_.default : Parameters_ α) with dt := 1 / 10, I_e_ := I_e },
    S_ := State_.default 0 0,
    V_ := { P11ex_ := 19 / 20, P11in_ := 19 / 20, P22_ := 9 / 10,
            P21ex_ := 1 / 260, P21in_ := 1 / 260, P20_ := 1 / 250,
            RefractoryCounts_ := N, weighted_spikes_ex_ := 0, weighted_spikes_in_ := 0 },
    B_ := emptyBuffers, last_spike_ := 0, emitted := [] }

/-- A node like `restNode 0 N` but with membrane potential `V_m_ = V`. -/
def chargedNode (V : α) (N : Int) : Node α :=
  { P_ := (restNode 0 N).P_,
    S_ := { (State_.default 0 0 : State_ α) with V_m_ := V },
    V_ := (restNode 0 N).V_,
    B_ := emptyBuffers, last_spike_ := 0, emitted := [] }

/-- A node like `restNode I_e N` but with the given membrane potential,
synaptic currents, input currents, enhancement and refractory counter. -/
def loadedNode (I_e V i_ex i_in i_0 i_1 enh : α) (r N : Int) : Node α :=
  { P_ := (restNode I_e N).P_,
    S_ := { (State_.default i_1 0 : State_ α) with
      V_m_ := V, i_syn_ex_ := i_ex, i_syn_in_ := i_in, i_0_ := i_0,
      enhancement := enh, r_ref_ := r },
    V_ := (restNode I_e N).V_,
    B_ := emptyBuffers, last_spike_ := 0, emitted := [] }

/-- A node with one modulator (gid 7), the given history and the given last
spike time of the modulator; everything else as in `restNode 0 20`. -/
def ieNode (hist : List α) (last : α) : Node α :=
  { P_ := { (Parameters_.default : Parameters_ α) with dt := 1 / 10, stimulator_ := [7] },
    S_ := { (State_.default 0 0 : State_ α) with hist_ := hist, t_lastspike_ := [last] },
    V_ := (restNode 0 20).V_,
    B_ := emptyBuffers, last_spike_ := 0, emitted := [] }

/-- A spike of the modulator with gid 7, stamped `t_spike`, weight 1. -/
def modulatorSpike (t_spike : α) : SpikeEvent α :=
  { weight := 1, multiplicity := 1, rel_delivery_steps := 1, sender_gid := 7,
    stamp_ms := t_spike }

/-- A rational function standing in for `std::exp` where a theorem that holds
for every `exp` is instantiated. -/
def expStandIn : ℚ → ℚ := fun x => 1 + x

/-- The default parameters and the default state over the rationals. -/
def defaultP : Parameters_ ℚ := Parameters_.default

/-- The default state over the rationals, with `i_1_ = 0`. -/
def defaultS : State_ ℚ := State_.default 0 0

end Inputs

/-! ## Theorems -/

/-! ## Lemmas on the setters -/

/-- The flag returned by `updateValue` says whether the key was present. -/
theorem updateValue_fst {T : Type} (e : Option T) (v : T) :
    (updateValue e v).1 = e.isSome := by
  cases e <;> rfl

/-- The value returned by `updateValue` is the entry, or the old value. -/
theorem updateValue_snd {T : Type} (e : Option T) (v : T) :
    (updateValue e v).2 = e.getD v := by
  cases e <;> rfl

section SetterLemmas

variable {α : Type} [LinearOrderedField α]

/-- The validated fields of the record after the dictionary has been applied,
in terms of the dictionary and the record before. -/
theorem assign_fields (p : Parameters_ α) (d : Dict α) :
    (p.assign d).1.E_L_ = d.E_L.getD p.E_L_ ∧
    (p.assign d).2 = d.E_L.getD p.E_L_ - p.E_L_ ∧
    (p.assign d).1.V_reset_ =
      (match d.V_reset with
       | some v => v - d.E_L.getD p.E_L_
       | none => p.V_reset_ - (d.E_L.getD p.E_L_ - p.E_L_)) ∧
    (p.assign d).1.Theta_ =
      (match d.V_th with
       | some v => v - d.E_L.getD p.E_L_
       | none => p.Theta_ - (d.E_L.getD p.E_L_ - p.E_L_)) ∧
    (p.assign d).1.C_ = d.C_m.getD p.C_ ∧
    (p.assign d).1.Tau_ = d.tau_m.getD p.Tau_ ∧
    (p.assign d).1.tau_ex_ = d.tau_syn_ex.getD p.tau_ex_ ∧
    (p.assign d).1.tau_in_ = d.tau_syn_in.getD p.tau_in_ ∧
    (p.assign d).1.t_ref_ = d.t_ref.getD p.t_ref_ := by
  simp only [Parameters_.assign, updateValue_fst, updateValue_snd]
  cases d.V_reset <;> cases d.V_th <;> simp

end SetterLemmas

/-! ## Lemmas on update -/

/-- `find_if` returns the end iterator when no element satisfies the predicate. -/
theorem find_if_eq_nil {α : Type} (pred : α → Bool) (l : List α)
    (h : ∀ x ∈ l, pred x = false) : find_if pred l = [] := by
  induction l with
  | nil => rfl
  | cons x xs ih =>
    have hx : pred x = false := h x (List.mem_cons_self x xs)
    simp only [find_if, hx]
    exact ih (fun y hy => h y (List.mem_cons_of_mem x hy))

/-- Steps of a sequence of operations, one operation at a time. -/
theorem totalSteps_cons {α : Type} (op : Op α) (ops : List (Op α)) :
    totalSteps (op :: ops) = op.steps + totalSteps ops := by
  simp [totalSteps]

section UpdateLemmas

variable {α : Type} [LinearOrderedField α]

/-- The part of a node that one step of update never changes. -/
theorem update_step_frame (res : α) (origin lag : Int) (n : Node α) :
    (update_step res origin lag n).P_ = n.P_ ∧
    (update_step res origin lag n).S_.enhancement = n.S_.enhancement ∧
    (update_step res origin lag n).S_.t_lastspike_ = n.S_.t_lastspike_ ∧
    (update_step res origin lag n).V_.RefractoryCounts_ = n.V_.RefractoryCounts_ := by
  simp only [update_step, synaptic_update, membrane_update, latency_branch, peak_check,
    Node.emit]
  split_ifs <;> exact ⟨rfl, rfl, rfl, rfl⟩

/-- A step that starts refractory below the peak: floor potential, counter
decremented, no spike. -/
theorem update_step_refractory (res : α) (origin lag : Int) (n : Node α)
    (hV : n.S_.V_m_ < 105) (hr : n.S_.r_ref_ ≠ 0) :
    (update_step res origin lag n).S_.V_m_ = 0.1 ∧
    (update_step res origin lag n).S_.r_ref_ = n.S_.r_ref_ - 1 ∧
    (update_step res origin lag n).emitted = n.emitted ∧
    (update_step res origin lag n).S_.hist_ = n.S_.hist_ := by
  simp [update_step, synaptic_update, membrane_update, peak_check, not_le.mpr hV, hr]

/-- A step that starts at or above the peak, with a nonzero refractory count:
the peak check spikes and the step ends on the floor with `N - 1` left. -/
theorem update_step_peak (res : α) (origin lag : Int) (n : Node α)
    (hV : n.S_.V_m_ ≥ 105) (hN : n.V_.RefractoryCounts_ ≠ 0) :
    (update_step res origin lag n).S_.V_m_ = 0.1 ∧
    (update_step res origin lag n).S_.r_ref_ = n.V_.RefractoryCounts_ - 1 ∧
    (update_step res origin lag n).emitted =
      n.emitted ++ [{ spiketime_step := origin + lag + 1, lag := lag }] ∧
    (update_step res origin lag n).S_.hist_ =
      n.S_.hist_ ++ [stepToMs res (origin + lag + 1)] := by
  have hV2 : (105 : α) ≤ n.S_.V_m_ := hV
  simp [update_step, synaptic_update, membrane_update, peak_check, hV2, hN, Node.emit,
    Node.get_spiketime_ms]

/-- A step of the latency branch whose candidate reaches the peak: it ends with
`V_m_ = 105`, `r_ref_ = RefractoryCounts_`, one spike, and the loop index in
the history. -/
theorem update_step_latency_spike (res : α) (origin lag : Int) (n : Node α)
    (hr : n.S_.r_ref_ = 0) (hlo : 15.6 < n.S_.V_m_) (hhi : n.S_.V_m_ < 105)
    (hc : n.S_.V_m_ + ((n.S_.V_m_ / 15 - 1) ^ 2 * n.P_.dt)
      / (1 - (n.S_.V_m_ / 15 - 1) * n.P_.dt) * 15 ≥ 105) :
    (update_step res origin lag n).S_.V_m_ = 105 ∧
    (update_step res origin lag n).S_.r_ref_ = n.V_.RefractoryCounts_ ∧
    (update_step res origin lag n).emitted =
      n.emitted ++ [{ spiketime_step := origin + lag + 1, lag := lag }] ∧
    (update_step res origin lag n).S_.hist_ = n.S_.hist_ ++ [(lag : α)] := by
  have hc2 : (105 : α) ≤ n.S_.V_m_ + ((n.S_.V_m_ / 15 - 1) ^ 2 * n.P_.dt)
      / (1 - (n.S_.V_m_ / 15 - 1) * n.P_.dt) * 15 := hc
  simp [update_step, synaptic_update, membrane_update, peak_check, not_le.mpr hhi, hr, hlo,
    latency_branch, Node.emit, hc2]

/-- A step emits a spike only through the peak check (the step starts with
`V_m_ >= 105`) or through the latency branch (the step starts active with
`15.6 < V_m_ < 105` and the candidate potential reaches 105). -/
theorem update_step_spike_cases (res : α) (origin lag : Int) (n : Node α) :
    (update_step res origin lag n).emitted = n.emitted ∨
    n.S_.V_m_ ≥ 105 ∨
    (n.S_.r_ref_ = 0 ∧ 15.6 < n.S_.V_m_ ∧ n.S_.V_m_ < 105 ∧
      n.S_.V_m_ + ((n.S_.V_m_ / 15 - 1) ^ 2 * n.P_.dt)
        / (1 - (n.S_.V_m_ / 15 - 1) * n.P_.dt) * 15 ≥ 105) := by
  by_cases hV : n.S_.V_m_ ≥ 105
  · exact Or.inr (Or.inl hV)
  · have hlt : n.S_.V_m_ < 105 := lt_of_not_ge hV
    by_cases hr : n.S_.r_ref_ = 0
    · by_cases hlo : 15.6 < n.S_.V_m_
      · by_cases hc : n.S_.V_m_ + ((n.S_.V_m_ / 15 - 1) ^ 2 * n.P_.dt)
            / (1 - (n.S_.V_m_ / 15 - 1) * n.P_.dt) * 15 ≥ 105
        · exact Or.inr (Or.inr ⟨hr, hlo, hlt, hc⟩)
        · left
          have hc2 : ¬ (105 : α) ≤ n.S_.V_m_ + ((n.S_.V_m_ / 15 - 1) ^ 2 * n.P_.dt)
            / (1 - (n.S_.V_m_ / 15 - 1) * n.P_.dt) * 15 := hc
          simp [update_step, synaptic_update, membrane_update, peak_check, not_le.mpr hlt,
            hr, hlo, latency_branch, hc2]
      · left
        simp [update_step, synaptic_update, membrane_update, peak_check, not_le.mpr hlt,
          hr, hlo]
    · left
      exact (update_step_refractory res origin lag n hlt hr).2.2.1

/-- After a spike of the latency branch, with a nonzero refractory count, the
peak check of the next step emits a second spike: the two steps together
append two spikes and two history entries, the raw loop index of the first
step and the time in ms of the second. -/
theorem latency_spike_then_peak_spike (res : α) (origin lag origin2 lag2 : Int)
    (n : Node α)
    (hr : n.S_.r_ref_ = 0) (hlo : 15.6 < n.S_.V_m_) (hhi : n.S_.V_m_ < 105)
    (hc : n.S_.V_m_ + ((n.S_.V_m_ / 15 - 1) ^ 2 * n.P_.dt)
      / (1 - (n.S_.V_m_ / 15 - 1) * n.P_.dt) * 15 ≥ 105)
    (hN : n.V_.RefractoryCounts_ ≠ 0) :
    (update_step res origin2 lag2 (update_step res origin lag n)).emitted =
      n.emitted ++ [{ spiketime_step := origin + lag + 1, lag := lag },
        { spiketime_step := origin2 + lag2 + 1, lag := lag2 }] ∧
    (update_step res origin2 lag2 (update_step res origin lag n)).S_.hist_ =
      n.S_.hist_ ++ [(lag : α), stepToMs res (origin2 + lag2 + 1)] := by
  obtain ⟨s1, -, s3, s4⟩ := update_step_latency_spike res origin lag n hr hlo hhi hc
  have f := update_step_frame res origin lag n
  obtain ⟨-, -, p3, p4⟩ := update_step_peak res origin2 lag2 (update_step res origin lag n)
    (by rw [s1]) (by rw [f.2.2.2]; exact hN)
  rw [p3, p4, s3, s4]
  simp

/-- The part of a node that the loop of update never changes. -/
theorem update_loop_frame (res : α) (origin : Int) (k : Nat) :
    ∀ (lag : Int) (n : Node α),
      (update_loop res origin k lag n).P_ = n.P_ ∧
      (update_loop res origin k lag n).S_.enhancement = n.S_.enhancement ∧
      (update_loop res origin k lag n).S_.t_lastspike_ = n.S_.t_lastspike_ ∧
      (update_loop res origin k lag n).V_.RefractoryCounts_ = n.V_.RefractoryCounts_ := by
  induction k with
  | zero => intro lag n; exact ⟨rfl, rfl, rfl, rfl⟩
  | succ k ih =>
    intro lag n
    obtain ⟨h1, h2, h3, h4⟩ := ih (lag + 1) (update_step res origin lag n)
    obtain ⟨g1, g2, g3, g4⟩ := update_step_frame res origin lag n
    simp only [update_loop]
    exact ⟨h1.trans g1, h2.trans g2, h3.trans g3, h4.trans g4⟩

/-- On the floor with at least `j` refractory steps left, `j` more steps stay
on the floor. -/
theorem update_loop_hold (res : α) (origin : Int) (j : Nat) :
    ∀ (lag : Int) (n : Node α), n.S_.V_m_ = 0.1 → (j : Int) ≤ n.S_.r_ref_ →
      (update_loop res origin j lag n).S_.V_m_ = 0.1 ∧
      (update_loop res origin j lag n).S_.r_ref_ = n.S_.r_ref_ - j := by
  induction j with
  | zero => intro lag n hV _; exact ⟨hV, by simp [update_loop]⟩
  | succ j ih =>
    intro lag n hV hr
    have hlt : n.S_.V_m_ < 105 := by rw [hV]; norm_num
    have hne : n.S_.r_ref_ ≠ 0 := by push_cast at hr; omega
    obtain ⟨s1, s2, -, -⟩ := update_step_refractory res origin lag n hlt hne
    have := ih (lag + 1) (update_step res origin lag n) s1 (by rw [s2]; push_cast at hr; omega)
    simp only [update_loop]
    refine ⟨this.1, ?_⟩
    rw [this.2, s2]; push_cast; ring

/-- The current handler changes only the buffers. -/
theorem handle_current_frame (e : CurrentEvent α) (n : Node α) :
    (handle_current e n).P_ = n.P_ ∧ (handle_current e n).V_ = n.V_ ∧
    (handle_current e n).S_ = n.S_ ∧ (handle_current e n).emitted = n.emitted ∧
    (handle_current e n).last_spike_ = n.last_spike_ := by
  unfold handle_current
  simp only
  split_ifs <;> simp

/-- Buffering a spike changes only the buffers. -/
theorem buffer_spike_frame (e : SpikeEvent α) (n : Node α) :
    (buffer_spike e n).P_ = n.P_ ∧ (buffer_spike e n).V_ = n.V_ ∧
    (buffer_spike e n).S_ = n.S_ ∧ (buffer_spike e n).emitted = n.emitted ∧
    (buffer_spike e n).last_spike_ = n.last_spike_ := by
  unfold buffer_spike
  split_ifs <;> simp

/-- The loop of the IE update visits exactly the entries of the history that
satisfy the predicate, in insertion order, each once. -/
theorem ie_while_find_if (exp : α → α) (tau lambda last t_spike : α)
    (pred : α → Bool) (l : List α) :
    ∀ enh : α, ie_while exp tau lambda last t_spike pred (find_if pred l) enh =
      (l.filter pred).foldl
        (fun acc h => acc + exp ((last - h) / tau) * lambda
          - exp ((h - t_spike) / tau) * lambda) enh := by
  induction l with
  | nil => intro enh; simp [find_if, ie_while]
  | cons x xs ih =>
    intro enh
    by_cases hx : pred x = true
    · simp only [find_if, hx, if_true, List.filter_cons_of_pos, List.foldl_cons]
      rw [ie_while]
      exact ih _
    · simp only [Bool.not_eq_true] at hx
      simp only [find_if, hx, List.filter_cons, List.foldl_cons]
      simpa using ih enh

end UpdateLemmas

/-! ## Lemmas on the event handlers and on runs -/

section HandlerLemmas

variable {α : Type} [LinearOrderedField α] [FloorRing α]

/-- Truncation toward zero is monotone. -/
theorem truncToInt_mono {x y : α} (h : x ≤ y) : truncToInt x ≤ truncToInt y := by
  unfold truncToInt
  by_cases hx : 0 ≤ x
  · have hy : 0 ≤ y := le_trans hx h
    rw [if_pos hx, if_pos hy]
    exact Int.floor_mono h
  · rw [if_neg hx]
    by_cases hy : 0 ≤ y
    · rw [if_pos hy]
      have h1 : ⌈x⌉ ≤ 0 := Int.ceil_le.mpr (by push_neg at hx; exact_mod_cast hx.le)
      have h2 : 0 ≤ ⌊y⌋ := Int.floor_nonneg.mpr hy
      exact le_trans h1 h2
    · rw [if_neg hy]
      exact Int.ceil_mono h

/-- Truncation of a non-negative value lying in `[z, z + 1)`. -/
theorem truncToInt_of_nonneg {x : α} {z : Int} (h1 : (z : α) ≤ x) (h2 : x < z + 1)
    (h0 : 0 ≤ x) : truncToInt x = z := by
  unfold truncToInt
  rw [if_pos h0]
  exact Int.floor_eq_iff.mpr ⟨h1, h2⟩

/-- The IE update of one modulator changes only the enhancement and
`t_lastspike_`, whose length it keeps. -/
theorem ie_modulator_frame (exp : α → α) (t : α) (i : Nat) (n n1 : Node α)
    (h : ie_modulator exp t i n = some n1) :
    n1.P_ = n.P_ ∧ n1.V_ = n.V_ ∧ n1.B_ = n.B_ ∧ n1.emitted = n.emitted ∧
    n1.last_spike_ = n.last_spike_ ∧
    n1.S_.V_m_ = n.S_.V_m_ ∧ n1.S_.r_ref_ = n.S_.r_ref_ ∧ n1.S_.hist_ = n.S_.hist_ ∧
    n1.S_.i_0_ = n.S_.i_0_ ∧ n1.S_.i_1_ = n.S_.i_1_ ∧ n1.S_.i_syn_ex_ = n.S_.i_syn_ex_ ∧
    n1.S_.i_syn_in_ = n.S_.i_syn_in_ ∧ n1.S_.Vpositive = n.S_.Vpositive ∧
    n1.S_.t_lastspike_.length = n.S_.t_lastspike_.length := by
  unfold ie_modulator at h
  cases hl : n.S_.t_lastspike_[i]? with
  | none => rw [hl] at h; cases h
  | some last =>
    rw [hl] at h
    simp only [Option.some.injEq] at h
    subst h
    simp

/-- The loop over the modulators changes only the enhancement and
`t_lastspike_`, whose length it keeps. -/
theorem ie_for_frame (exp : α → α) (e : SpikeEvent α) (k : Nat) :
    ∀ (i : Nat) (n n1 : Node α), ie_for exp e k i n = some n1 →
    n1.P_ = n.P_ ∧ n1.V_ = n.V_ ∧ n1.B_ = n.B_ ∧ n1.emitted = n.emitted ∧
    n1.last_spike_ = n.last_spike_ ∧
    n1.S_.V_m_ = n.S_.V_m_ ∧ n1.S_.r_ref_ = n.S_.r_ref_ ∧ n1.S_.hist_ = n.S_.hist_ ∧
    n1.S_.i_0_ = n.S_.i_0_ ∧ n1.S_.i_1_ = n.S_.i_1_ ∧ n1.S_.i_syn_ex_ = n.S_.i_syn_ex_ ∧
    n1.S_.i_syn_in_ = n.S_.i_syn_in_ ∧ n1.S_.Vpositive = n.S_.Vpositive ∧
    n1.S_.t_lastspike_.length = n.S_.t_lastspike_.length := by
  induction k with
  | zero =>
    intro i n n1 h
    simp only [ie_for, Option.some.injEq] at h
    subst h
    simp
  | succ k ih =>
    intro i n n1 h
    unfold ie_for at h
    cases hs : n.P_.stimulator_[i]? with
    | none => rw [hs] at h; cases h
    | some modulator =>
      rw [hs] at h
      simp only at h
      by_cases hg : e.sender_gid = modulator
      · rw [if_pos hg] at h
        cases hm : ie_modulator exp e.stamp_ms i n with
        | none => rw [hm] at h; cases h
        | some n2 =>
          rw [hm] at h
          simp only at h
          have a := ie_modulator_frame exp e.stamp_ms i n n2 hm
          have b := ih (i + 1) n2 n1 h
          simp only [a, b, and_self]
      · rw [if_neg hg] at h
        exact ih (i + 1) n n1 h

/-- The spike handler changes only the buffers, the enhancement and
`t_lastspike_`, whose length it keeps. -/
theorem handle_spike_frame (exp : α → α) (e : SpikeEvent α) (n n1 : Node α)
    (h : handle_spike exp e n = some n1) :
    n1.P_ = n.P_ ∧ n1.V_ = n.V_ ∧ n1.emitted = n.emitted ∧
    n1.last_spike_ = n.last_spike_ ∧
    n1.S_.V_m_ = n.S_.V_m_ ∧ n1.S_.r_ref_ = n.S_.r_ref_ ∧ n1.S_.hist_ = n.S_.hist_ ∧
    n1.S_.i_0_ = n.S_.i_0_ ∧ n1.S_.i_1_ = n.S_.i_1_ ∧ n1.S_.i_syn_ex_ = n.S_.i_syn_ex_ ∧
    n1.S_.i_syn_in_ = n.S_.i_syn_in_ ∧ n1.S_.Vpositive = n.S_.Vpositive ∧
    n1.S_.t_lastspike_.length = n.S_.t_lastspike_.length := by
  unfold handle_spike at h
  obtain ⟨b1, b2, b3, b4, b5⟩ := buffer_spike_frame e n
  simp only at h
  split_ifs at h with hm
  · have a := ie_for_frame exp e _ _ _ _ h
    simp only [a, b1, b2, b3, b4, b5, and_self]
  · simp only [Option.some.injEq] at h; subst h
    simp only [b1, b2, b3, b4, b5, and_self]

/-- A run that starts on the floor with at least as many refractory steps left
as it performs stays on the floor. -/
theorem run_hold (exp : α → α) (res : α) (ops : List (Op α)) :
    ∀ (n n1 : Node α), n.S_.V_m_ = 0.1 → (totalSteps ops : Int) ≤ n.S_.r_ref_ →
      run exp res ops n = some n1 →
      n1.S_.V_m_ = 0.1 ∧ n1.S_.r_ref_ = n.S_.r_ref_ - totalSteps ops ∧
      n1.V_.RefractoryCounts_ = n.V_.RefractoryCounts_ := by
  induction ops with
  | nil =>
    intro n n1 hV _ h
    simp only [run, Option.some.injEq] at h
    subst h
    exact ⟨hV, by simp [totalSteps], rfl⟩
  | cons op ops ih =>
    intro n n1 hV hr h
    rw [totalSteps_cons] at hr ⊢
    cases op with
    | update origin from_ to_ =>
      simp only [Op.steps] at hr ⊢
      simp only [run, update] at h
      have hr1 : (((to_ - from_).toNat : Nat) : Int) ≤ n.S_.r_ref_ := by
        push_cast at hr; omega
      obtain ⟨a1, a2⟩ := update_loop_hold res origin (to_ - from_).toNat from_ n hV hr1
      have a3 := (update_loop_frame res origin (to_ - from_).toNat from_ n).2.2.2
      obtain ⟨b1, b2, b3⟩ := ih _ n1 a1 (by rw [a2]; push_cast at hr ⊢; omega) h
      refine ⟨b1, ?_, b3.trans a3⟩
      rw [b2, a2]
      push_cast; ring
    | spike e =>
      simp only [Op.steps, Nat.zero_add] at hr ⊢
      simp only [run] at h
      cases hs : handle_spike exp e n with
      | none => rw [hs] at h; cases h
      | some n2 =>
        rw [hs] at h
        simp only at h
        have f := handle_spike_frame exp e n n2 hs
        have hV2 : n2.S_.V_m_ = 0.1 := by rw [f.2.2.2.2.1]; exact hV
        have hr2 : (totalSteps ops : Int) ≤ n2.S_.r_ref_ := by
          rw [f.2.2.2.2.2.1]; exact hr
        obtain ⟨b1, b2, b3⟩ := ih n2 n1 hV2 hr2 h
        refine ⟨b1, ?_, ?_⟩
        · rw [b2, f.2.2.2.2.2.1]
        · rw [b3, f.2.1]
    | current e =>
      simp only [Op.steps, Nat.zero_add] at hr ⊢
      simp only [run] at h
      have f := handle_current_frame e n
      have hV2 : (handle_current e n).S_.V_m_ = 0.1 := by rw [f.2.2.1]; exact hV
      have hr2 : (totalSteps ops : Int) ≤ (handle_current e n).S_.r_ref_ := by
        rw [f.2.2.1]; exact hr
      obtain ⟨b1, b2, b3⟩ := ih _ n1 hV2 hr2 h
      refine ⟨b1, ?_, ?_⟩
      · rw [b2, f.2.2.1]
      · rw [b3, f.2.1]

/-- A run that starts at or above the peak and performs between 1 and
`RefractoryCounts_` steps ends on the floor. -/
theorem run_peak (exp : α → α) (res : α) (ops : List (Op α)) :
    ∀ (n n1 : Node α), n.S_.V_m_ ≥ 105 → 1 ≤ totalSteps ops →
      (totalSteps ops : Int) ≤ n.V_.RefractoryCounts_ →
      run exp res ops n = some n1 →
      n1.S_.V_m_ = 0.1 ∧ n1.S_.r_ref_ = n.V_.RefractoryCounts_ - totalSteps ops := by
  induction ops with
  | nil =>
    intro n n1 _ h1
    simp [totalSteps] at h1
  | cons op ops ih =>
    intro n n1 hV h1 hN h
    rw [totalSteps_cons] at h1 hN ⊢
    cases op with
    | update origin from_ to_ =>
      simp only [Op.steps] at h1 hN ⊢
      simp only [run, update] at h
      cases hk : (to_ - from_).toNat with
      | zero =>
        rw [hk] at h h1 hN
        simp only [update_loop] at h
        have := ih n n1 hV (by simpa using h1) (by simpa using hN) h
        simpa using this
      | succ k =>
        rw [hk] at h hN
        simp only [update_loop] at h
        have hN0 : n.V_.RefractoryCounts_ ≠ 0 := by
          push_cast at hN; omega
        obtain ⟨s1, s2, -, -⟩ := update_step_peak res origin from_ n hV hN0
        have hk1 : ((k : Nat) : Int) ≤ (update_step res origin from_ n).S_.r_ref_ := by
          rw [s2]; push_cast at hN; omega
        obtain ⟨a1, a2⟩ := update_loop_hold res origin k (from_ + 1) _ s1 hk1
        obtain ⟨b1, b2, -⟩ := run_hold exp res ops _ n1 a1 (by
          rw [a2, s2]; push_cast at hN ⊢; omega) h
        refine ⟨b1, ?_⟩
        rw [b2, a2, s2]
        push_cast; ring
    | spike e =>
      simp only [Op.steps, Nat.zero_add] at h1 hN ⊢
      simp only [run] at h
      cases hs : handle_spike exp e n with
      | none => rw [hs] at h; cases h
      | some n2 =>
        rw [hs] at h
        simp only at h
        have f := handle_spike_frame exp e n n2 hs
        have := ih n2 n1 (by rw [f.2.2.2.2.1]; exact hV) h1 (by rw [f.2.1]; exact hN) h
        rw [f.2.1] at this
        exact this
    | current e =>
      simp only [Op.steps, Nat.zero_add] at h1 hN ⊢
      simp only [run] at h
      have f := handle_current_frame e n
      have := ih _ n1 (by rw [f.2.2.1]; exact hV) h1 (by rw [f.2.1]; exact hN) h
      rw [f.2.1] at this
      exact this

/-- The loop over the modulators returns a node when `t_lastspike_` has an
entry for every modulator. -/
theorem ie_for_total (exp : α → α) (e : SpikeEvent α) (k : Nat) :
    ∀ (i : Nat) (n : Node α), i + k ≤ n.P_.stimulator_.length →
      n.P_.stimulator_.length ≤ n.S_.t_lastspike_.length →
      ∃ n1, ie_for exp e k i n = some n1 := by
  induction k with
  | zero => intro i n _ _; exact ⟨n, rfl⟩
  | succ k ih =>
    intro i n hlen hcal
    have hi : i < n.P_.stimulator_.length := by omega
    have hi2 : i < n.S_.t_lastspike_.length := by omega
    unfold ie_for
    rw [List.getElem?_eq_getElem hi]
    simp only
    split_ifs with hg
    · have hm : ∃ n2, ie_modulator exp e.stamp_ms i n = some n2 := by
        unfold ie_modulator
        rw [List.getElem?_eq_getElem hi2]
        exact ⟨_, rfl⟩
      obtain ⟨n2, hn2⟩ := hm
      rw [hn2]
      have f := ie_modulator_frame exp e.stamp_ms i n n2 hn2
      exact ih (i + 1) n2 (by rw [f.1]; omega) (by rw [f.1, f.2.2.2.2.2.2.2.2.2.2.2.2.2]; exact hcal)
    · exact ih (i + 1) n (by omega) hcal

/-- The spike handler returns a node when `t_lastspike_` has an entry for every
modulator. -/
theorem handle_spike_total (exp : α → α) (e : SpikeEvent α) (n : Node α)
    (hcal : n.P_.stimulator_.length ≤ n.S_.t_lastspike_.length) :
    ∃ n1, handle_spike exp e n = some n1 := by
  unfold handle_spike
  obtain ⟨b1, -, b3, -, -⟩ := buffer_spike_frame e n
  simp only
  split_ifs
  · exact ie_for_total exp e _ 0 _ (by omega) (by rw [b1, b3]; exact hcal)
  · exact ⟨_, rfl⟩

/-- A run returns a node when `t_lastspike_` has an entry for every modulator. -/
theorem run_total (exp : α → α) (res : α) (ops : List (Op α)) :
    ∀ n : Node α, n.P_.stimulator_.length ≤ n.S_.t_lastspike_.length →
      ∃ n1, run exp res ops n = some n1 := by
  induction ops with
  | nil => intro n _; exact ⟨n, rfl⟩
  | cons op ops ih =>
    intro n hcal
    cases op with
    | update origin from_ to_ =>
      simp only [run, update]
      obtain ⟨f1, -, f3, -⟩ := update_loop_frame res origin (to_ - from_).toNat from_ n
      exact ih _ (by rw [f1, f3]; exact hcal)
    | spike e =>
      simp only [run]
      obtain ⟨n2, hn2⟩ := handle_spike_total exp e n hcal
      rw [hn2]
      have f := handle_spike_frame exp e n n2 hn2
      exact ih n2 (by rw [f.1, f.2.2.2.2.2.2.2.2.2.2.2.2]; exact hcal)
    | current e =>
      simp only [run]
      have f := handle_current_frame e n
      exact ih _ (by rw [f.1, f.2.2.1]; exact hcal)

/-- The loop over the modulators does nothing when no index in its range
matches the sender. -/
theorem ie_for_skip (exp : α → α) (e : SpikeEvent α) (k : Nat) :
    ∀ (i : Nat) (n : Node α), i + k ≤ n.P_.stimulator_.length →
      (∀ j, i ≤ j → j < i + k → n.P_.stimulator_[j]? ≠ some e.sender_gid) →
      ie_for exp e k i n = some n := by
  induction k with
  | zero => intro i n _ _; rfl
  | succ k ih =>
    intro i n hlen hno
    have hi : i < n.P_.stimulator_.length := by omega
    unfold ie_for
    rw [List.getElem?_eq_getElem hi]
    have hne : ¬ e.sender_gid = n.P_.stimulator_[i] := by
      intro heq
      apply hno i le_rfl (by omega)
      rw [List.getElem?_eq_getElem hi, heq]
    simp only [hne, if_false]
    exact ih (i + 1) n (by omega) (fun j h1 h2 => hno j (by omega) (by omega))

/-- When exactly one index matches the sender, the loop over the modulators is
the IE update of that index. -/
theorem ie_for_single (exp : α → α) (e : SpikeEvent α) (m : Nat) (k : Nat) :
    ∀ (i : Nat) (n : Node α), i + k ≤ n.P_.stimulator_.length →
      i ≤ m → m < i + k →
      n.P_.stimulator_[m]? = some e.sender_gid →
      (∀ j, n.P_.stimulator_[j]? = some e.sender_gid → j = m) →
      ie_for exp e k i n = ie_modulator exp e.stamp_ms m n := by
  induction k with
  | zero => intro i n _ h1 h2; omega
  | succ k ih =>
    intro i n hlen h1 h2 hm huniq
    have hi : i < n.P_.stimulator_.length := by omega
    unfold ie_for
    rw [List.getElem?_eq_getElem hi]
    by_cases him : i = m
    · subst him
      have heq : e.sender_gid = n.P_.stimulator_[i] := by
        rw [List.getElem?_eq_getElem hi] at hm
        exact (Option.some.inj hm).symm
      simp only [heq, if_true]
      cases hmod : ie_modulator exp e.stamp_ms i n with
      | none => rfl
      | some n1 =>
        simp only
        have f := ie_modulator_frame exp e.stamp_ms i n n1 hmod
        apply ie_for_skip
        · rw [f.1]; omega
        · intro j hj1 hj2 hj
          rw [f.1] at hj
          have := huniq j (by rw [hj, heq])
          omega
    · have hne : ¬ e.sender_gid = n.P_.stimulator_[i] := by
        intro heq
        apply him
        apply huniq
        rw [List.getElem?_eq_getElem hi, heq]
      simp only [hne, if_false]
      exact ih (i + 1) n (by omega) (by omega) (by omega) hm huniq

/-- With the rule disabled, or a sender that is no modulator, the spike handler
only buffers the spike. -/
theorem handle_spike_no_modulator (exp : α → α) (e : SpikeEvent α) (n : Node α)
    (h : n.P_.std_mod = false ∨ e.sender_gid ∉ n.P_.stimulator_) :
    handle_spike exp e n = some (buffer_spike e n) := by
  unfold handle_spike
  obtain ⟨b1, -, -, -, -⟩ := buffer_spike_frame e n
  simp only
  split_ifs with hm
  · rw [b1] at hm
    rcases h with h | h
    · rw [h] at hm; cases hm
    · apply ie_for_skip exp e _ 0 _ (by omega)
      intro j _ _ hj
      rw [b1] at hj
      exact h (List.getElem?_mem hj)
  · rfl

/-- The IE update for one modulator index: the enhancement is folded over the
history entries whose truncated value exceeds the truncated last spike time
of the modulator, in insertion order, and the last spike time is replaced. -/
theorem ie_modulator_eq (exp : α → α) (t_spike : α) (i : Nat) (n : Node α) (last : α)
    (hl : n.S_.t_lastspike_[i]? = some last) :
    ie_modulator exp t_spike i n = some { n with S_ := { n.S_ with
      enhancement :=
        (n.S_.hist_.filter (fun its => decide (truncToInt its > truncToInt last))).foldl
          (fun acc h => acc + exp ((last - h) / n.P_.tau) * n.P_.lambda
            - exp ((h - t_spike) / n.P_.tau) * n.P_.lambda) n.S_.enhancement,
      t_lastspike_ := n.S_.t_lastspike_.set i t_spike } } := by
  unfold ie_modulator
  rw [hl]
  simp only
  rw [ie_while_find_if]

/-- When no history entry is greater than `last`, the IE update of a modulator
only replaces its last spike time. -/
theorem ie_modulator_quiet (exp : α → α) (t_spike : α) (i : Nat) (n : Node α) (last : α)
    (hl : n.S_.t_lastspike_[i]? = some last)
    (hh : ∀ h ∈ n.S_.hist_, h ≤ last) :
    ie_modulator exp t_spike i n = some { n with S_ := { n.S_ with
      t_lastspike_ := n.S_.t_lastspike_.set i t_spike } } := by
  rw [ie_modulator_eq exp t_spike i n last hl]
  have hf : n.S_.hist_.filter
      (fun its => decide (truncToInt its > truncToInt last)) = [] := by
    rw [List.filter_eq_nil_iff]
    intro h hmem
    have := truncToInt_mono (hh h hmem)
    simp only [gt_iff_lt, decide_eq_true_eq, not_lt]
    exact this
  rw [hf]
  rfl

/-- When no history entry is greater than the last spike time of any matching
modulator, the loop over the modulators keeps the enhancement and sets the
matching entries of `t_lastspike_` to the stamp of the event. -/
theorem ie_for_quiet (exp : α → α) (e : SpikeEvent α) (k : Nat) :
    ∀ (i : Nat) (n : Node α), i + k ≤ n.P_.stimulator_.length →
      n.P_.stimulator_.length ≤ n.S_.t_lastspike_.length →
      (∀ (j : Nat) (last : α), i ≤ j → n.P_.stimulator_[j]? = some e.sender_gid →
        n.S_.t_lastspike_[j]? = some last → ∀ h ∈ n.S_.hist_, h ≤ last) →
      ∃ n1, ie_for exp e k i n = some n1 ∧
        n1.S_.enhancement = n.S_.enhancement ∧
        ∀ j : Nat, n1.S_.t_lastspike_[j]? =
          if i ≤ j ∧ j < i + k ∧ n.P_.stimulator_[j]? = some e.sender_gid
          then some e.stamp_ms else n.S_.t_lastspike_[j]? := by
  induction k with
  | zero =>
    intro i n _ _ _
    refine ⟨n, rfl, rfl, fun j => ?_⟩
    rw [if_neg (by omega)]
  | succ k ih =>
    intro i n hlen hcal hq
    have hi : i < n.P_.stimulator_.length := by omega
    have hi2 : i < n.S_.t_lastspike_.length := by omega
    unfold ie_for
    rw [List.getElem?_eq_getElem hi]
    simp only
    by_cases hg : e.sender_gid = n.P_.stimulator_[i]
    · rw [if_pos hg]
      have hsi : n.P_.stimulator_[i]? = some e.sender_gid := by
        rw [List.getElem?_eq_getElem hi, hg]
      have hm := ie_modulator_quiet exp e.stamp_ms i n (n.S_.t_lastspike_[i])
        (List.getElem?_eq_getElem hi2)
        (hq i _ le_rfl hsi (List.getElem?_eq_getElem hi2))
      rw [hm]
      simp only
      obtain ⟨n1, r1, r2, r3⟩ := ih (i + 1)
        { n with S_ := { n.S_ with t_lastspike_ := n.S_.t_lastspike_.set i e.stamp_ms } }
        (by simp only; omega) (by simpa using hcal)
        (by
          intro j last hj hs ht h hmem
          simp only at hs ht hmem
          rw [List.getElem?_set_ne (by omega)] at ht
          exact hq j last (by omega) hs ht h hmem)
      refine ⟨n1, r1, r2, fun j => ?_⟩
      rw [r3 j]
      simp only
      by_cases hji : j = i
      · subst hji
        rw [if_neg (by omega), if_pos ⟨le_rfl, by omega, hsi⟩]
        rw [List.getElem?_set_self hi2]
      · rw [List.getElem?_set_ne (fun h => hji h.symm)]
        by_cases hc : n.P_.stimulator_[j]? = some e.sender_gid
        · by_cases hr : i + 1 ≤ j ∧ j < i + 1 + k
          · rw [if_pos ⟨hr.1, hr.2, hc⟩, if_pos ⟨by omega, by omega, hc⟩]
          · rw [if_neg (fun h => hr ⟨h.1, h.2.1⟩), if_neg (fun h => hr ⟨by omega, by omega⟩)]
        · rw [if_neg (fun h => hc h.2.2), if_neg (fun h => hc h.2.2)]
    · rw [if_neg hg]
      have hsi : ¬ n.P_.stimulator_[i]? = some e.sender_gid := by
        rw [List.getElem?_eq_getElem hi]
        intro h
        exact hg (Option.some.inj h).symm
      obtain ⟨n1, r1, r2, r3⟩ := ih (i + 1) n (by omega) hcal
        (fun j last hj => hq j last (by omega))
      refine ⟨n1, r1, r2, fun j => ?_⟩
      rw [r3 j]
      by_cases hji : j = i
      · subst hji
        rw [if_neg (by omega), if_neg (fun h => hsi h.2.2)]
      · by_cases hc : n.P_.stimulator_[j]? = some e.sender_gid
        · by_cases hr : i + 1 ≤ j ∧ j < i + 1 + k
          · rw [if_pos ⟨hr.1, hr.2, hc⟩, if_pos ⟨by omega, by omega, hc⟩]
          · rw [if_neg (fun h => hr ⟨h.1, h.2.1⟩), if_neg (fun h => hr ⟨by omega, by omega⟩)]
        · rw [if_neg (fun h => hc h.2.2), if_neg (fun h => hc h.2.2)]

/-- On the one-modulator node `ieNode hist last`, a spike of the modulator
changes the enhancement from 1 to the fold of the two adjustments over the
history entries whose truncated value exceeds the truncated `last`. -/
theorem handle_spike_ieNode (exp : α → α) (hist : List α) (last t_spike : α) :
    (handle_spike exp (modulatorSpike t_spike) (ieNode hist last)).map
        (fun n => n.S_.enhancement) =
      some ((hist.filter (fun its => decide (truncToInt its > truncToInt last))).foldl
        (fun acc h => acc + exp ((last - h) / (25 / 2)) * (1 / 10000)
          - exp ((h - t_spike) / (25 / 2)) * (1 / 10000)) 1) := by
  have hs : handle_spike exp (modulatorSpike t_spike) (ieNode hist last)
      = ie_modulator exp t_spike 0
          (buffer_spike (modulatorSpike t_spike) (ieNode hist last)) := by
    obtain ⟨b1, -, -, -, -⟩ := buffer_spike_frame (modulatorSpike t_spike) (ieNode hist last)
    have hstim : (ieNode hist last).P_.stimulator_ = [7] := rfl
    have hmod : (ieNode hist last).P_.std_mod = true := rfl
    unfold handle_spike
    simp only [b1, hmod, if_true]
    exact ie_for_single exp (modulatorSpike t_spike) 0 _ 0 _
      (by rw [b1, hstim]; simp) le_rfl (by rw [hstim]; simp)
      (by rw [b1, hstim]; rfl)
      (by
        rw [b1, hstim]
        intro j hj
        cases j with
        | zero => rfl
        | succ j => simp at hj)
  rw [hs, ie_modulator_eq exp t_spike 0 _ last
    (by simp [buffer_spike, ieNode, modulatorSpike])]
  simp [buffer_spike, ieNode, modulatorSpike, Parameters_.default, State_.default]

end HandlerLemmas

/-! ## C1 to C3: the setters -/

section SetterTheorems

variable {α : Type} [LinearOrderedField α]

/-- C1: for every parameter record and every dictionary, `Parameters_::set`
throws `BadProperty` if and only if, in the record after the dictionary has
been applied, `V_reset_ >= Theta_`, or `C_ <= 0`, or one of `Tau_`, `tau_ex_`,
`tau_in_` is `<= 0`, or `t_ref_ < 0`; and every successful call returns that
record, with `V_reset_ < Theta_`. -/
theorem Parameters_set_throws_iff (p : Parameters_ α) (d : Dict α) :
    ((∃ msg, p.set d = .error (.BadProperty msg)) ↔
      ((p.assign d).1.V_reset_ ≥ (p.assign d).1.Theta_ ∨ (p.assign d).1.C_ ≤ 0 ∨
        (p.assign d).1.Tau_ ≤ 0 ∨ (p.assign d).1.tau_ex_ ≤ 0 ∨
        (p.assign d).1.tau_in_ ≤ 0 ∨ (p.assign d).1.t_ref_ < 0)) ∧
    (∀ q delta_EL, p.set d = .ok (q, delta_EL) →
      q = (p.assign d).1 ∧ delta_EL = (p.assign d).2 ∧ q.V_reset_ < q.Theta_) := by
  unfold Parameters_.set
  simp only []
  by_cases h1 : (p.assign d).1.V_reset_ ≥ (p.assign d).1.Theta_
  · simp [h1]
  by_cases h2 : (p.assign d).1.C_ ≤ 0
  · simp [h1, h2]
  by_cases h3 : (p.assign d).1.Tau_ ≤ 0 ∨ (p.assign d).1.tau_ex_ ≤ 0 ∨ (p.assign d).1.tau_in_ ≤ 0
  · rw [if_neg h1, if_neg h2, if_pos h3]
    refine ⟨⟨fun _ => ?_, fun _ => ⟨_, rfl⟩⟩, ?_⟩
    · rcases h3 with h | h | h <;> simp [h]
    · intro q δ h; cases h
  by_cases h4 : (p.assign d).1.t_ref_ < 0
  · simp [h1, h2, h3, h4]
  · rw [if_neg h1, if_neg h2, if_neg h3, if_neg h4]
    refine ⟨⟨?_, fun h => ?_⟩, ?_⟩
    · rintro ⟨_, h⟩
      cases h
    · rcases h with h | h | h | h | h | h
      · exact absurd h h1
      · exact absurd h h2
      · exact absurd (Or.inl h) h3
      · exact absurd (Or.inr (Or.inl h)) h3
      · exact absurd (Or.inr (Or.inr h)) h3
      · exact absurd h h4
    · intro q δ h
      injection h with h
      injection h with hq hδ
      subst hq; subst hδ
      exact ⟨rfl, rfl, lt_of_not_ge h1⟩

/-- C2: `set_status` is all-or-nothing. If `Parameters_::set` or
`Archiving_Node::set_status` throws, the node after the call is the node
before it and the exception is reported; `P_` and `S_` are replaced by the
updated copies exactly when every validation succeeded. (`State_::set` has no
validation of its own.) -/
theorem set_status_all_or_nothing (arch : Dict α → Except Exn Unit) (n : Node α)
    (d : Dict α) :
    (((∃ ex, n.P_.set d = .error ex) ∨ (∃ ex, arch d = .error ex)) →
      (set_status arch n d).1 = n ∧ (set_status arch n d).2 ≠ none) ∧
    (∀ ptmp delta_EL, n.P_.set d = .ok (ptmp, delta_EL) → arch d = .ok () →
      (set_status arch n d).1 =
        { n with P_ := ptmp, S_ := n.S_.set d ptmp delta_EL } ∧
      (set_status arch n d).2 = none) ∧
    ((set_status arch n d).2 ≠ none → (set_status arch n d).1 = n) := by
  unfold set_status
  cases hP : n.P_.set d with
  | error ex => simp
  | ok r =>
    obtain ⟨ptmp, delta_EL⟩ := r
    cases hA : arch d with
    | error ex => simp
    | ok u => simp

/-- C3: for every valid parameter record and every state, `Parameters_::set`
with a dictionary that holds only a new `E_L` succeeds and returns
`delta_EL = new E_L - old E_L`; `Theta_` and `V_reset_` decrease by
`delta_EL`, `State_::set` with that delta decreases `V_m_` by `delta_EL`, and
the values that `get` reports for `V_th`, `V_reset` and `V_m` are the same
before and after. -/
theorem E_L_shift_preserves_absolute (p : Parameters_ α) (s : State_ α) (e : α)
    (hv : p.V_reset_ < p.Theta_ ∧ 0 < p.C_ ∧ 0 < p.Tau_ ∧ 0 < p.tau_ex_ ∧
      0 < p.tau_in_ ∧ 0 ≤ p.t_ref_) :
    ∃ q, p.set { E_L := some e } = .ok (q, e - p.E_L_) ∧
      q.E_L_ = e ∧
      q.Theta_ = p.Theta_ - (e - p.E_L_) ∧
      q.V_reset_ = p.V_reset_ - (e - p.E_L_) ∧
      (s.set { E_L := some e } q (e - p.E_L_)).V_m_ = s.V_m_ - (e - p.E_L_) ∧
      q.get_V_th = p.get_V_th ∧
      q.get_V_reset = p.get_V_reset ∧
      (s.set { E_L := some e } q (e - p.E_L_)).get_V_m q = s.get_V_m p := by
  obtain ⟨h1, h2, h3, h4, h5, h6⟩ := hv
  refine ⟨(p.assign { E_L := some e }).1, ?_, ?_⟩
  · simp [Parameters_.set, Parameters_.assign, updateValue, not_le.mpr h1, not_le.mpr h2,
      not_le.mpr h3, not_le.mpr h4, not_le.mpr h5, not_lt.mpr h6]
  · simp only [Parameters_.assign, State_.set, updateValue, Parameters_.get_V_th,
      Parameters_.get_V_reset, State_.get_V_m]
    refine ⟨rfl, ?_, ?_, ?_, ?_, ?_, ?_⟩ <;> simp <;> ring

end SetterTheorems

/-- `Parameters_::set` writes before it validates: on the default record with
`C_m = -1` it throws, and the record it was called on has `C_ = -1` by then. -/
theorem set_mutates_before_validating :
    (∃ ex, defaultP.set { C_m := some (-1) } = .error ex) ∧
      (defaultP.assign { C_m := some (-1) }).1.C_ = -1 ∧ defaultP.C_ = 250 := by
  refine ⟨⟨.BadProperty "Capacitance must be strictly positive.", ?_⟩, ?_, ?_⟩
  · norm_num [Parameters_.set, Parameters_.assign, updateValue, defaultP, Parameters_.default]
  · simp [Parameters_.assign, updateValue, defaultP, Parameters_.default]
  · simp [defaultP, Parameters_.default]

/-- C3 (witness): the default record and state, with `E_L` moved from -70 to
-65. -/
theorem E_L_shift_witness :
    ∃ q, defaultP.set { E_L := some (-65) } = .ok (q, -65 - defaultP.E_L_) ∧
      q.E_L_ = -65 ∧
      q.Theta_ = defaultP.Theta_ - (-65 - defaultP.E_L_) ∧
      q.V_reset_ = defaultP.V_reset_ - (-65 - defaultP.E_L_) ∧
      (defaultS.set { E_L := some (-65) } q (-65 - defaultP.E_L_)).V_m_ = defaultS.V_m_ - (-65 - defaultP.E_L_) ∧
      q.get_V_th = defaultP.get_V_th ∧
      q.get_V_reset = defaultP.get_V_reset ∧
      (defaultS.set { E_L := some (-65) } q (-65 - defaultP.E_L_)).get_V_m q = defaultS.get_V_m defaultP :=
  E_L_shift_preserves_absolute defaultP defaultS (-65) (by norm_num [defaultP, Parameters_.default])

/-! ## C4 to C6: spikes, refractory period and history -/

/-- C4 (as stated, refuted): from rest with `I_e = 30000` and
`RefractoryCounts_ = 1`, the peak check emits a spike at loop index 1, and at
the end of the one step that follows the spike step (loop index 2) the
potential is 120.09, not the floor 0.1. -/
theorem refractory_floor_after_peak_check_fails :
    (restNode (30000 : ℚ) 1).V_.RefractoryCounts_ = 1 ∧
    (update (1 / 10 : ℚ) 0 0 1 (restNode 30000 1)).emitted = [] ∧
    (update (1 / 10 : ℚ) 0 0 2 (restNode 30000 1)).emitted = [⟨2, 1⟩] ∧
    (update (1 / 10 : ℚ) 0 0 3 (restNode 30000 1)).emitted = [⟨2, 1⟩] ∧
    (update (1 / 10 : ℚ) 0 0 3 (restNode 30000 1)).S_.V_m_ = 12009 / 100 ∧
    (update (1 / 10 : ℚ) 0 0 3 (restNode 30000 1)).S_.V_m_ ≠ 0.1 := by
  norm_num [update, update_loop, update_step, synaptic_update, membrane_update,
    latency_branch, peak_check, restNode, emptyBuffers, Node.emit, Node.get_spiketime_ms,
    stepToMs, RingBuffer.get_value, State_.default, Parameters_.default]

/-- A step that starts on the floor with the refractory counter at 0 is not
refractory: it takes the linear propagator step, leaves the counter at 0 and
emits nothing. -/
theorem update_step_from_floor {α : Type} [LinearOrderedField α] (res : α)
    (origin lag : Int) (n : Node α)
    (hV : n.S_.V_m_ = 0.1) (hr : n.S_.r_ref_ = 0) :
    (update_step res origin lag n).S_.V_m_ =
      0.1 * n.V_.P22_ + n.S_.i_syn_in_ * n.V_.P21in_
        + (n.S_.i_syn_ex_ * n.V_.P21ex_ + (n.P_.I_e_ + n.S_.i_0_) * n.V_.P20_)
          * n.S_.enhancement ∧
    (update_step res origin lag n).S_.r_ref_ = 0 ∧
    (update_step res origin lag n).emitted = n.emitted := by
  have h1 : ¬ n.S_.V_m_ ≥ 105 := by rw [hV]; norm_num
  have h2 : ¬ n.S_.V_m_ > 15.6 := by rw [hV]; norm_num
  unfold update_step peak_check
  rw [if_neg h1]
  unfold membrane_update
  rw [if_pos hr, if_neg h2]
  refine ⟨?_, ?_, ?_⟩
  · simp [synaptic_update, hV]
  · simp [synaptic_update, hr]
  · simp [synaptic_update]

section RefractoryTheorems

variable {α : Type} [LinearOrderedField α] [FloorRing α]

/-- C4 (amended): let `ops` be any operations of a run performing between 1
and `RefractoryCounts_` update steps, with any events in between. (1) If a
step starts with `V_m_ >= 105`, the peak check of that step emits a spike,
and when `ops` starts there, after `ops` the potential is 0.1 and `r_ref_` is
`RefractoryCounts_` minus the number of steps of `ops`: the floor holds at the
end of the spike step and of the `RefractoryCounts_ - 1` steps after it. When
`ops` performs `RefractoryCounts_` steps it ends with `r_ref_ = 0`, and the
step that follows (the `RefractoryCounts_`-th after the spike step) is not
refractory: it takes the linear propagator step from 0.1, keeps `r_ref_ = 0`
and emits nothing. (2) If a step emits a spike through the latency branch, it
ends with `V_m_ = 105`, and after any such `ops` run from there the potential
is 0.1 and `r_ref_` is `RefractoryCounts_` minus the number of steps of `ops`:
the floor holds at the end of each of the `RefractoryCounts_` steps after the
spike step. A run returns a node whenever `t_lastspike_` has an entry for
every modulator. -/
theorem refractory_floor_after_spike (exp : α → α) (res : α) (origin lag : Int)
    (ops : List (Op α)) (n : Node α)
    (h1 : 1 ≤ totalSteps ops)
    (hN : (totalSteps ops : Int) ≤ n.V_.RefractoryCounts_) :
    (n.S_.V_m_ ≥ 105 →
      (update_step res origin lag n).emitted =
        n.emitted ++ [{ spiketime_step := origin + lag + 1, lag := lag }] ∧
      (∀ n1, run exp res ops n = some n1 →
        n1.S_.V_m_ = 0.1 ∧
        n1.S_.r_ref_ = n.V_.RefractoryCounts_ - totalSteps ops ∧
        ((totalSteps ops : Int) = n.V_.RefractoryCounts_ →
          n1.S_.r_ref_ = 0 ∧
          ∀ origin2 lag2 : Int,
            (update_step res origin2 lag2 n1).S_.V_m_ =
              0.1 * n1.V_.P22_ + n1.S_.i_syn_in_ * n1.V_.P21in_
                + (n1.S_.i_syn_ex_ * n1.V_.P21ex_ + (n1.P_.I_e_ + n1.S_.i_0_) * n1.V_.P20_)
                  * n1.S_.enhancement ∧
            (update_step res origin2 lag2 n1).S_.r_ref_ = 0 ∧
            (update_step res origin2 lag2 n1).emitted = n1.emitted)) ∧
      (n.P_.stimulator_.length ≤ n.S_.t_lastspike_.length →
        ∃ n1, run exp res ops n = some n1)) ∧
    (n.S_.r_ref_ = 0 → 15.6 < n.S_.V_m_ → n.S_.V_m_ < 105 →
      n.S_.V_m_ + ((n.S_.V_m_ / 15 - 1) ^ 2 * n.P_.dt)
        / (1 - (n.S_.V_m_ / 15 - 1) * n.P_.dt) * 15 ≥ 105 →
      (update_step res origin lag n).emitted =
        n.emitted ++ [{ spiketime_step := origin + lag + 1, lag := lag }] ∧
      (update_step res origin lag n).S_.V_m_ = 105 ∧
      (∀ n1, run exp res ops (update_step res origin lag n) = some n1 →
        n1.S_.V_m_ = 0.1 ∧
        n1.S_.r_ref_ = n.V_.RefractoryCounts_ - totalSteps ops) ∧
      (n.P_.stimulator_.length ≤ n.S_.t_lastspike_.length →
        ∃ n1, run exp res ops (update_step res origin lag n) = some n1)) := by
  have hN0 : n.V_.RefractoryCounts_ ≠ 0 := by
    intro h0
    rw [h0] at hN
    have : (1 : Int) ≤ (totalSteps ops : Int) := by exact_mod_cast h1
    omega
  refine ⟨fun hV => ⟨?_, ?_, ?_⟩, fun hr hlo hhi hc => ⟨?_, ?_, ?_, ?_⟩⟩
  · exact (update_step_peak res origin lag n hV hN0).2.2.1
  · intro n1 hrun
    obtain ⟨a1, a2⟩ := run_peak exp res ops n n1 hV h1 hN hrun
    refine ⟨a1, a2, fun heq => ?_⟩
    have hr0 : n1.S_.r_ref_ = 0 := by rw [a2, heq]; exact sub_self _
    exact ⟨hr0, fun origin2 lag2 => update_step_from_floor res origin2 lag2 n1 a1 hr0⟩
  · exact run_total exp res ops n
  · exact (update_step_latency_spike res origin lag n hr hlo hhi hc).2.2.1
  · exact (update_step_latency_spike res origin lag n hr hlo hhi hc).1
  · intro n1 hrun
    obtain ⟨s1, -, -, -⟩ := update_step_latency_spike res origin lag n hr hlo hhi hc
    have f := update_step_frame res origin lag n
    have := run_peak exp res ops _ n1 (by rw [s1]) h1 (by rw [f.2.2.2]; exact hN) hrun
    rw [f.2.2.2] at this
    exact this
  · intro hcal
    have f := update_step_frame res origin lag n
    exact run_total exp res ops _ (by rw [f.1, f.2.2.1]; exact hcal)

end RefractoryTheorems

/-- C4 (witness): a node with `V_m_ = 100`, `dt = 1/10` and
`RefractoryCounts_ = 2` spikes through the latency branch in its next step,
which ends with `V_m_ = 105`; after the two steps that follow the potential
is 0.1 and `r_ref_` is 0. -/
theorem refractory_floor_after_spike_witness :
    (update_step (1 / 10 : ℚ) 0 0 (chargedNode 100 2)).S_.V_m_ = 105 ∧
    ∀ n1, run expStandIn (1 / 10 : ℚ) [Op.update 0 1 3]
        (update_step (1 / 10 : ℚ) 0 0 (chargedNode 100 2)) = some n1 →
      n1.S_.V_m_ = 0.1 ∧ n1.S_.r_ref_ = 0 :=
  have h := (refractory_floor_after_spike expStandIn (1 / 10 : ℚ) 0 0 [Op.update 0 1 3]
    (chargedNode 100 2)
    (by simp [totalSteps, Op.steps])
    (by simp [totalSteps, Op.steps, chargedNode, restNode])).2
    (by simp [chargedNode, State_.default])
    (by norm_num [chargedNode, State_.default])
    (by norm_num [chargedNode, State_.default])
    (by norm_num [chargedNode, restNode, State_.default, Parameters_.default])
  ⟨h.2.1, fun n1 hrun => by
    have := h.2.2.1 n1 hrun
    simpa [totalSteps, Op.steps, chargedNode, restNode] using this⟩

/-- C5 (evaluation at the failing input): from rest with the constant
current `I_e = 25000`, step size 1/10 and `RefractoryCounts_ = 2`, the
potential is 100 after the first step and reaches 105 through the latency
branch in the second; `update` then emits two spikes, one in the latency step
(loop index 1) and one by the peak check of the next step (loop index 2), and
appends two entries to `hist_`. The potential is 0.1 at the end of the two
steps after the latency step and leaves the floor in the step after them. -/
theorem scenario_B_emits_two_spikes :
    (update (1 / 10 : ℚ) 0 0 1 (restNode 25000 2)).S_.V_m_ = 100 ∧
    (update (1 / 10 : ℚ) 0 0 1 (restNode 25000 2)).emitted = [] ∧
    (update (1 / 10 : ℚ) 0 0 2 (restNode 25000 2)).S_.V_m_ = 105 ∧
    (update (1 / 10 : ℚ) 0 0 2 (restNode 25000 2)).emitted = [⟨2, 1⟩] ∧
    (update (1 / 10 : ℚ) 0 0 3 (restNode 25000 2)).emitted = [⟨2, 1⟩, ⟨3, 2⟩] ∧
    (update (1 / 10 : ℚ) 0 0 3 (restNode 25000 2)).S_.V_m_ = 0.1 ∧
    (update (1 / 10 : ℚ) 0 0 4 (restNode 25000 2)).S_.V_m_ = 0.1 ∧
    (update (1 / 10 : ℚ) 0 0 5 (restNode 25000 2)).S_.V_m_ = 10009 / 100 ∧
    (update (1 / 10 : ℚ) 0 0 5 (restNode 25000 2)).emitted = [⟨2, 1⟩, ⟨3, 2⟩] ∧
    (update (1 / 10 : ℚ) 0 0 5 (restNode 25000 2)).S_.hist_ = [1, 3 / 10] := by
  norm_num [update, update_loop, update_step, synaptic_update, membrane_update,
    latency_branch, peak_check, restNode, emptyBuffers, Node.emit, Node.get_spiketime_ms,
    stepToMs, RingBuffer.get_value, State_.default, Parameters_.default]

/-- C6 (evaluation at the failing input): from rest with `I_e = 25000`,
resolution 1/10 ms and `RefractoryCounts_ = 2`, two successive calls
`update(0, 0, 2)` and `update(2, 0, 2)` append to `hist_` first the raw loop
index 1 (latency branch, second step of the first call) and then the time
0.3 ms of step 3 (peak check, first step of the second call): the second
entry is smaller than the first. -/
theorem history_not_monotone :
    (run expStandIn (1 / 10 : ℚ) [Op.update 0 0 2, Op.update 2 0 2]
        (restNode 25000 2)).map (fun n => n.S_.hist_) = some [1, 3 / 10] ∧
    ((3 / 10 : ℚ) < 1) := by
  norm_num [run, update, update_loop, update_step, synaptic_update, membrane_update,
    latency_branch, peak_check, restNode, emptyBuffers, Node.emit,
    Node.get_spiketime_ms, stepToMs, RingBuffer.get_value, State_.default,
    Parameters_.default]

/-! ## C7 to C10: the intrinsic-excitability rule -/

section FrameTheorems

variable {α : Type} [LinearOrderedField α] [FloorRing α]

/-- C7: across any sequence of update calls, current events and spike events,
where every spike event either finds the rule disabled (`std_mod` false) or
comes from a sender that is not in `stimulator_`, the run returns a node, and
`S_.enhancement` and `S_.t_lastspike_` are what they were. -/
theorem enhancement_changes_only_by_modulator (exp : α → α) (res : α)
    (ops : List (Op α)) (n : Node α)
    (h : ∀ e, Op.spike e ∈ ops →
      n.P_.std_mod = false ∨ e.sender_gid ∉ n.P_.stimulator_) :
    ∃ n1, run exp res ops n = some n1 ∧
      n1.S_.enhancement = n.S_.enhancement ∧
      n1.S_.t_lastspike_ = n.S_.t_lastspike_ ∧
      n1.P_ = n.P_ := by
  induction ops generalizing n with
  | nil => exact ⟨n, rfl, rfl, rfl, rfl⟩
  | cons op ops ih =>
    cases op with
    | update origin from_ to_ =>
      simp only [run, update]
      obtain ⟨f1, f2, f3, -⟩ := update_loop_frame res origin (to_ - from_).toNat from_ n
      obtain ⟨n1, r1, r2, r3, r4⟩ := ih (update_loop res origin (to_ - from_).toNat from_ n)
        (fun e he => by rw [f1]; exact h e (List.mem_cons_of_mem _ he))
      exact ⟨n1, r1, r2.trans f2, r3.trans f3, r4.trans f1⟩
    | spike e =>
      simp only [run]
      rw [handle_spike_no_modulator exp e n (h e (List.mem_cons_self _ _))]
      obtain ⟨b1, -, b3, -, -⟩ := buffer_spike_frame e n
      obtain ⟨n1, r1, r2, r3, r4⟩ := ih (buffer_spike e n)
        (fun e1 he => by rw [b1]; exact h e1 (List.mem_cons_of_mem _ he))
      exact ⟨n1, r1, by rw [r2, b3], by rw [r3, b3], r4.trans b1⟩
    | current e =>
      simp only [run]
      obtain ⟨f1, -, f3, -, -⟩ := handle_current_frame e n
      obtain ⟨n1, r1, r2, r3, r4⟩ := ih (handle_current e n)
        (fun e1 he => by rw [f1]; exact h e1 (List.mem_cons_of_mem _ he))
      exact ⟨n1, r1, by rw [r2, f3], by rw [r3, f3], r4.trans f1⟩

end FrameTheorems

/-- C7 (witness): a node whose only modulator has gid 7 receives a spike from
gid 8, a current and three update steps; enhancement and the last spike time
of the modulator are unchanged. -/
theorem enhancement_changes_only_by_modulator_witness :
    ∃ n1, run expStandIn (1 / 10 : ℚ)
        [Op.spike { modulatorSpike 20 with sender_gid := 8 },
         Op.current { weight := 1, current := 300, rport := 0, rel_delivery_steps := 1 },
         Op.update 0 0 3]
        (ieNode [5, 12] 0) = some n1 ∧
      n1.S_.enhancement = (ieNode [5, 12] (0 : ℚ)).S_.enhancement ∧
      n1.S_.t_lastspike_ = (ieNode [5, 12] (0 : ℚ)).S_.t_lastspike_ ∧
      n1.P_ = (ieNode [5, 12] (0 : ℚ)).P_ :=
  enhancement_changes_only_by_modulator expStandIn (1 / 10 : ℚ) _ (ieNode [5, 12] 0)
    (by
      intro e he
      simp only [List.mem_cons, Op.spike.injEq, List.mem_singleton, reduceCtorEq,
        or_false, List.not_mem_nil] at he
      subst he
      right
      simp [ieNode, modulatorSpike])

/-- C8 (evaluation at the failing input): with history `[5.7]` and last
modulator spike time 5.2 the entry is strictly greater than `last`, but both
truncate to 5, so the scan does not select it: whatever `exp` is, the
enhancement stays 1. -/
theorem scan_skips_entry_within_same_millisecond (exp : ℚ → ℚ) :
    (57 / 10 : ℚ) > 26 / 5 ∧
    truncToInt (57 / 10 : ℚ) = 5 ∧ truncToInt (26 / 5 : ℚ) = 5 ∧
    (handle_spike exp (modulatorSpike 20) (ieNode [57 / 10] (26 / 5))).map
      (fun n => n.S_.enhancement) = some 1 := by
  have h1 : truncToInt (57 / 10 : ℚ) = 5 :=
    truncToInt_of_nonneg (by norm_num) (by norm_num) (by norm_num)
  have h2 : truncToInt (26 / 5 : ℚ) = 5 :=
    truncToInt_of_nonneg (by norm_num) (by norm_num) (by norm_num)
  refine ⟨by norm_num, h1, h2, ?_⟩
  rw [handle_spike_ieNode]
  simp [List.filter, h1, h2]

/-- C9 (evaluation at the failing input): over the reals with the real
exponential, history `[5.7]`, `last = 5.2`, `t_spike = 20`, `tau = 12.5`,
`lambda = 0.0001`: the only history entry exceeds `last`, the formula of the
claim gives a change that is not zero, and the handler leaves the enhancement
at 1. -/
theorem ie_formula_fails_within_same_millisecond :
    (∀ h ∈ [(57 / 10 : ℝ)], h > 26 / 5) ∧
    (1 / 10000 : ℝ) * (Real.exp ((26 / 5 - 57 / 10) / (25 / 2))
      - Real.exp ((57 / 10 - 20) / (25 / 2))) ≠ 0 ∧
    (handle_spike Real.exp (modulatorSpike (20 : ℝ)) (ieNode [57 / 10] (26 / 5))).map
      (fun n => n.S_.enhancement) = some 1 := by
  have h1 : truncToInt (57 / 10 : ℝ) = 5 :=
    truncToInt_of_nonneg (by norm_num) (by norm_num) (by norm_num)
  have h2 : truncToInt (26 / 5 : ℝ) = 5 :=
    truncToInt_of_nonneg (by norm_num) (by norm_num) (by norm_num)
  refine ⟨by intro h hh; simp at hh; subst hh; norm_num, ?_, ?_⟩
  · have hlt : Real.exp (((57 : ℝ) / 10 - 20) / (25 / 2))
        < Real.exp ((26 / 5 - 57 / 10) / (25 / 2)) :=
      Real.exp_lt_exp.mpr (by norm_num)
    have : (0 : ℝ) < 1 / 10000 := by norm_num
    exact ne_of_gt (mul_pos this (sub_pos.mpr hlt))
  · rw [handle_spike_ieNode]
    simp [List.filter, h1, h2]

/-- Scenario D on the code: history `[5, 12]`, `last = 0`, `t_spike = 20`,
`tau = 12.5`, `lambda = 0.0001`; both entries are selected and the
enhancement changes by the sum of the two paired adjustments. -/
theorem scenario_D_enhancement :
    (handle_spike Real.exp (modulatorSpike (20 : ℝ)) (ieNode [5, 12] 0)).map
      (fun n => n.S_.enhancement) =
    some (1 + (1 / 10000 : ℝ) * (Real.exp (-(2 / 5)) - Real.exp (-(6 / 5))
      + Real.exp (-(24 / 25)) - Real.exp (-(16 / 25)))) := by
  have h0 : truncToInt (0 : ℝ) = 0 :=
    truncToInt_of_nonneg (by norm_num) (by norm_num) (by norm_num)
  have h5 : truncToInt (5 : ℝ) = 5 :=
    truncToInt_of_nonneg (by norm_num) (by norm_num) (by norm_num)
  have h12 : truncToInt (12 : ℝ) = 12 :=
    truncToInt_of_nonneg (by norm_num) (by norm_num) (by norm_num)
  rw [handle_spike_ieNode]
  simp only [List.filter, h0, h5, h12]
  norm_num
  ring_nf

section QuietTheorems

variable {α : Type} [LinearOrderedField α] [FloorRing α]

/-- C10: when a spike is handled with the rule enabled, `t_lastspike_` has an
entry for every modulator, and no history entry is greater than the last
spike time of any modulator index that matches the sender, the handler
returns a node in which the enhancement is unchanged, every matching entry of
`t_lastspike_` is the stamp of the event and every other entry is what it
was; apart from `t_lastspike_` and the spike buffers nothing changes. -/
theorem modulator_spike_without_newer_history (exp : α → α) (e : SpikeEvent α)
    (n : Node α)
    (hmod : n.P_.std_mod = true)
    (hcal : n.P_.stimulator_.length ≤ n.S_.t_lastspike_.length)
    (hhist : ∀ (j : Nat) (last : α), n.P_.stimulator_[j]? = some e.sender_gid →
      n.S_.t_lastspike_[j]? = some last → ∀ h ∈ n.S_.hist_, h ≤ last) :
    ∃ n1, handle_spike exp e n = some n1 ∧
      n1.S_.enhancement = n.S_.enhancement ∧
      (∀ j : Nat, n1.S_.t_lastspike_[j]? =
        if n.P_.stimulator_[j]? = some e.sender_gid then some e.stamp_ms
        else n.S_.t_lastspike_[j]?) ∧
      n1.S_.hist_ = n.S_.hist_ ∧ n1.S_.V_m_ = n.S_.V_m_ ∧ n1.S_.r_ref_ = n.S_.r_ref_ ∧
      n1.S_.i_0_ = n.S_.i_0_ ∧ n1.S_.i_1_ = n.S_.i_1_ ∧
      n1.S_.i_syn_ex_ = n.S_.i_syn_ex_ ∧ n1.S_.i_syn_in_ = n.S_.i_syn_in_ ∧
      n1.S_.Vpositive = n.S_.Vpositive ∧
      n1.P_ = n.P_ ∧ n1.V_ = n.V_ ∧ n1.emitted = n.emitted ∧
      n1.last_spike_ = n.last_spike_ := by
  obtain ⟨b1, b2, b3, b4, b5⟩ := buffer_spike_frame e n
  have hrun : handle_spike exp e n
      = ie_for exp e n.P_.stimulator_.length 0 (buffer_spike e n) := by
    unfold handle_spike
    simp only [b1, hmod, if_true]
  obtain ⟨n1, r1, r2, r3⟩ := ie_for_quiet exp e n.P_.stimulator_.length 0 (buffer_spike e n)
    (by rw [b1]; omega) (by rw [b1, b3]; exact hcal)
    (by
      intro j last _ hs ht
      rw [b1] at hs
      rw [b3] at ht ⊢
      exact hhist j last hs ht)
  rw [← hrun] at r1
  have f := handle_spike_frame exp e n n1 r1
  refine ⟨n1, r1, by rw [r2, b3], fun j => ?_, f.2.2.2.2.2.2.1, f.2.2.2.2.1,
    f.2.2.2.2.2.1, f.2.2.2.2.2.2.2.1, f.2.2.2.2.2.2.2.2.1, f.2.2.2.2.2.2.2.2.2.1,
    f.2.2.2.2.2.2.2.2.2.2.1, f.2.2.2.2.2.2.2.2.2.2.2.1, f.1, f.2.1, f.2.2.1, f.2.2.2.1⟩
  rw [r3 j, b1, b3]
  by_cases hc : n.P_.stimulator_[j]? = some e.sender_gid
  · have hj : j < n.P_.stimulator_.length := by
      by_contra hcon
      rw [List.getElem?_eq_none (by omega)] at hc
      cases hc
    rw [if_pos hc, if_pos ⟨by omega, by omega, hc⟩]
  · rw [if_neg hc, if_neg (fun h => hc h.2.2)]

end QuietTheorems

/-- C10 (witness): scenario C. The modulator with gid 7 spikes at 20 ms while
the history is empty and its last spike time is 0. -/
theorem modulator_spike_without_newer_history_witness :
    ∃ n1, handle_spike expStandIn (modulatorSpike (20 : ℚ)) (ieNode [] 0) = some n1 ∧
      n1.S_.enhancement = 1 ∧ n1.S_.t_lastspike_[0]? = some 20 ∧ n1.S_.hist_ = [] := by
  obtain ⟨n1, h1, h2, h3, h4, -⟩ :=
    modulator_spike_without_newer_history expStandIn (modulatorSpike (20 : ℚ)) (ieNode [] 0)
      (by simp [ieNode, Parameters_.default])
      (by simp [ieNode])
      (by intro j last _ _ h hmem; simp [ieNode] at hmem)
  refine ⟨n1, h1, ?_, ?_, ?_⟩
  · rw [h2]; simp [ieNode, State_.default]
  · rw [h3 0]; simp [ieNode, modulatorSpike, Parameters_.default]
  · rw [h4]; simp [ieNode]

/-! ## C11 to C14: lambda, routing, validation and rest -/

/-- With `lambda = 0` the two adjustments of every visited entry are zero. -/
theorem ie_fold_lambda_zero {α : Type} [LinearOrderedField α] (exp : α → α)
    (tau last t_spike : α) (l : List α) :
    ∀ enh : α, l.foldl (fun acc h => acc + exp ((last - h) / tau) * 0
      - exp ((h - t_spike) / tau) * 0) enh = enh := by
  induction l with
  | nil => intro enh; rfl
  | cons x xs ih =>
    intro enh
    rw [List.foldl_cons, mul_zero, mul_zero, add_zero, sub_zero]
    exact ih enh

section LambdaZero

variable {α : Type} [LinearOrderedField α] [FloorRing α]

/-- With `lambda = 0` the IE update of a modulator keeps the enhancement. -/
theorem ie_modulator_lambda_zero (exp : α → α) (t_spike : α) (i : Nat) (n n1 : Node α)
    (hl : n.P_.lambda = 0) (h : ie_modulator exp t_spike i n = some n1) :
    n1.S_.enhancement = n.S_.enhancement := by
  cases hlast : n.S_.t_lastspike_[i]? with
  | none =>
    unfold ie_modulator at h
    rw [hlast] at h
    cases h
  | some last =>
    rw [ie_modulator_eq exp t_spike i n last hlast, hl] at h
    simp only [Option.some.injEq] at h
    subst h
    exact ie_fold_lambda_zero exp n.P_.tau last t_spike _ _

/-- With `lambda = 0` the loop over the modulators keeps the enhancement. -/
theorem ie_for_lambda_zero (exp : α → α) (e : SpikeEvent α) (k : Nat) :
    ∀ (i : Nat) (n n1 : Node α), n.P_.lambda = 0 → ie_for exp e k i n = some n1 →
      n1.S_.enhancement = n.S_.enhancement := by
  induction k with
  | zero =>
    intro i n n1 _ h
    simp only [ie_for, Option.some.injEq] at h
    subst h
    rfl
  | succ k ih =>
    intro i n n1 hl h
    unfold ie_for at h
    cases hs : n.P_.stimulator_[i]? with
    | none => rw [hs] at h; cases h
    | some modulator =>
      rw [hs] at h
      simp only at h
      by_cases hg : e.sender_gid = modulator
      · rw [if_pos hg] at h
        cases hm : ie_modulator exp e.stamp_ms i n with
        | none => rw [hm] at h; cases h
        | some n2 =>
          rw [hm] at h
          simp only at h
          have f := ie_modulator_frame exp e.stamp_ms i n n2 hm
          have a := ie_modulator_lambda_zero exp e.stamp_ms i n n2 hl hm
          have b := ih (i + 1) n2 n1 (by rw [f.1]; exact hl) h
          rw [b, a]
      · rw [if_neg hg] at h
        exact ih (i + 1) n n1 hl h

/-- With `lambda = 0` the spike handler keeps the enhancement. -/
theorem handle_spike_lambda_zero (exp : α → α) (e : SpikeEvent α) (n n1 : Node α)
    (hl : n.P_.lambda = 0) (h : handle_spike exp e n = some n1) :
    n1.S_.enhancement = n.S_.enhancement := by
  unfold handle_spike at h
  obtain ⟨b1, -, b3, -, -⟩ := buffer_spike_frame e n
  simp only at h
  split_ifs at h with hm
  · rw [ie_for_lambda_zero exp e _ _ _ _ (by rw [b1]; exact hl) h, b3]
  · simp only [Option.some.injEq] at h
    subst h
    rw [b3]

/-- C11: with `lambda = 0`, whatever the history, the modulator list and
`tau` are, any sequence of update calls, current events and spike events
(from modulators or not) leaves the enhancement at its initial value; the
run returns a node whenever `t_lastspike_` has an entry for every
modulator. -/
theorem lambda_zero_fixes_enhancement (exp : α → α) (res : α) (ops : List (Op α))
    (n : Node α) (hl : n.P_.lambda = 0) :
    (∀ n1, run exp res ops n = some n1 → n1.S_.enhancement = n.S_.enhancement) ∧
    (n.P_.stimulator_.length ≤ n.S_.t_lastspike_.length →
      ∃ n1, run exp res ops n = some n1) := by
  refine ⟨?_, run_total exp res ops n⟩
  induction ops generalizing n with
  | nil =>
    intro n1 h
    simp only [run, Option.some.injEq] at h
    subst h
    rfl
  | cons op ops ih =>
    intro n1 h
    cases op with
    | update origin from_ to_ =>
      simp only [run, update] at h
      obtain ⟨f1, f2, -, -⟩ := update_loop_frame res origin (to_ - from_).toNat from_ n
      rw [ih _ (by rw [f1]; exact hl) n1 h, f2]
    | spike e =>
      simp only [run] at h
      cases hs : handle_spike exp e n with
      | none => rw [hs] at h; cases h
      | some n2 =>
        rw [hs] at h
        simp only at h
        have f := handle_spike_frame exp e n n2 hs
        rw [ih n2 (by rw [f.1]; exact hl) n1 h,
          handle_spike_lambda_zero exp e n n2 hl hs]
    | current e =>
      simp only [run] at h
      obtain ⟨f1, -, f3, -, -⟩ := handle_current_frame e n
      rw [ih _ (by rw [f1]; exact hl) n1 h, f3]

end LambdaZero

/-- C11 (witness): the one-modulator node with history `[5, 12]` and
`lambda` set to 0 receives a spike of its modulator and two update steps;
the enhancement is still 1. -/
theorem lambda_zero_fixes_enhancement_witness :
    ∃ n1, run expStandIn (1 / 10 : ℚ) [Op.spike (modulatorSpike 20), Op.update 0 0 2]
        { ieNode [5, 12] 0 with P_ := { (ieNode [5, 12] (0 : ℚ)).P_ with lambda := 0 } }
          = some n1 ∧ n1.S_.enhancement = 1 := by
  obtain ⟨h1, h2⟩ := lambda_zero_fixes_enhancement expStandIn (1 / 10 : ℚ)
    [Op.spike (modulatorSpike 20), Op.update 0 0 2]
    { ieNode [5, 12] 0 with P_ := { (ieNode [5, 12] (0 : ℚ)).P_ with lambda := 0 } } rfl
  obtain ⟨n1, hn1⟩ := h2 (by simp [ieNode])
  exact ⟨n1, hn1, by rw [h1 n1 hn1]; simp [ieNode, State_.default]⟩

section Routing

variable {α : Type} [LinearOrderedField α] [FloorRing α]

/-- The spike handler leaves the buffers as `buffer_spike` made them. -/
theorem handle_spike_buffers (exp : α → α) (e : SpikeEvent α) (n n1 : Node α)
    (h : handle_spike exp e n = some n1) : n1.B_ = (buffer_spike e n).B_ := by
  unfold handle_spike at h
  simp only at h
  split_ifs at h with hm
  · exact (ie_for_frame exp e _ _ _ _ h).2.2.1
  · simp only [Option.some.injEq] at h
    subst h
    rfl

/-- C12: `handle( SpikeEvent& )` adds `weight * multiplicity` at the relative
delivery step to `spikes_ex_` when the weight is `>= 0` and to `spikes_in_`
when it is `< 0`, and leaves the other spike buffer and both current buffers
as they were; it returns a node whenever `t_lastspike_` has an entry for
every modulator. `handle( CurrentEvent& )` adds `weight * current` at the
delivery step to `currents_[ 0 ]` for port 0, to `currents_[ 1 ]` for port 1,
changes nothing for any other port, and never touches another buffer.
`add_value` adds to the addressed slot only, so two contributions to one slot
give the sum. -/
theorem event_routing (exp : α → α) (e : SpikeEvent α) (c c2 : CurrentEvent α)
    (n : Node α) :
    (∀ n1, handle_spike exp e n = some n1 →
      (e.weight ≥ 0 →
        n1.B_.spikes_ex_ = n.B_.spikes_ex_.add_value e.rel_delivery_steps
          (e.weight * e.multiplicity) ∧
        n1.B_.spikes_in_ = n.B_.spikes_in_) ∧
      (e.weight < 0 →
        n1.B_.spikes_in_ = n.B_.spikes_in_.add_value e.rel_delivery_steps
          (e.weight * e.multiplicity) ∧
        n1.B_.spikes_ex_ = n.B_.spikes_ex_) ∧
      n1.B_.currents_0 = n.B_.currents_0 ∧ n1.B_.currents_1 = n.B_.currents_1) ∧
    (n.P_.stimulator_.length ≤ n.S_.t_lastspike_.length →
      ∃ n1, handle_spike exp e n = some n1) ∧
    (c.rport = 0 → (handle_current c n).B_ = { n.B_ with
      currents_0 := (n.B_.currents_0.add_value c.rel_delivery_steps (c.weight * c.current)) }) ∧
    (c.rport = 1 → (handle_current c n).B_ = { n.B_ with
      currents_1 := (n.B_.currents_1.add_value c.rel_delivery_steps (c.weight * c.current)) }) ∧
    (c.rport ≠ 0 → c.rport ≠ 1 → (handle_current c n).B_ = n.B_) ∧
    (∀ (b : RingBuffer α) (offs : Int) (v : α) (k : Int),
      (b.add_value offs v).buffer_ k
        = if k = offs then b.buffer_ k + v else b.buffer_ k) ∧
    (c.rport = 0 → c2.rport = 0 → c2.rel_delivery_steps = c.rel_delivery_steps →
      (handle_current c2 (handle_current c n)).B_.currents_0.buffer_ c.rel_delivery_steps
        = n.B_.currents_0.buffer_ c.rel_delivery_steps
          + (c.weight * c.current + c2.weight * c2.current)) := by
  refine ⟨fun n1 h => ?_, handle_spike_total exp e n, ?_, ?_, ?_, ?_, ?_⟩
  · rw [handle_spike_buffers exp e n n1 h]
    unfold buffer_spike
    refine ⟨fun hw => ?_, fun hw => ?_, ?_, ?_⟩
    · rw [if_pos hw]; exact ⟨rfl, rfl⟩
    · rw [if_neg (not_le.mpr hw)]; exact ⟨rfl, rfl⟩
    · split_ifs <;> rfl
    · split_ifs <;> rfl
  · intro h0
    have h1 : ¬ (1 = c.rport) := by omega
    simp [handle_current, h0, h1]
  · intro h1
    have h0 : ¬ (0 = c.rport) := by omega
    simp [handle_current, h0, h1]
  · intro h0 h1
    have g0 : ¬ (0 = c.rport) := fun h => h0 h.symm
    have g1 : ¬ (1 = c.rport) := fun h => h1 h.symm
    simp [handle_current, g0, g1]
  · intro b offs v k
    rfl
  · intro h0 h0' hs
    have h1 : ¬ (1 = c.rport) := by omega
    have h1' : ¬ (1 = c2.rport) := by omega
    simp [handle_current, h0, h0', h1, h1', hs, RingBuffer.add_value, add_assoc]

end Routing

/-- C13 (evaluation at the failing input): `Parameters_::set` on the default
record with the dictionary `tau = 0` succeeds, and the record it returns has
`tau = 0`; the three validated time constants are positive. -/
theorem set_accepts_zero_tau :
    ∃ q, defaultP.set { tau := some 0 } = .ok (q, 0) ∧ q.tau = 0 ∧
      0 < q.Tau_ ∧ 0 < q.tau_ex_ ∧ 0 < q.tau_in_ := by
  refine ⟨(defaultP.assign { tau := some 0 }).1, ?_, ?_, ?_, ?_, ?_⟩ <;>
    norm_num [Parameters_.set, Parameters_.assign, updateValue, defaultP,
      Parameters_.default]

section Rest

variable {α : Type} [LinearOrderedField α]

/-- Below the peak the peak check does nothing. -/
theorem peak_check_of_lt (res : α) (origin lag : Int) (n : Node α)
    (h : n.S_.V_m_ < 105) : peak_check res origin lag n = n := by
  unfold peak_check
  rw [if_neg (not_le.mpr h)]

/-- An active node at or below the latency onset takes the linear step. -/
theorem membrane_update_linear (res : α) (origin lag : Int) (n : Node α)
    (hr : n.S_.r_ref_ = 0) (hlo : n.S_.V_m_ ≤ 15.6) :
    membrane_update res origin lag n = { n with S_ := { n.S_ with V_m_ :=
      n.S_.V_m_ * n.V_.P22_ + n.S_.i_syn_in_ * n.V_.P21in_
        + (n.S_.i_syn_ex_ * n.V_.P21ex_ + (n.P_.I_e_ + n.S_.i_0_) * n.V_.P20_)
          * n.S_.enhancement } } := by
  unfold membrane_update
  rw [if_pos hr, if_neg (not_lt.mpr hlo)]

/-- One update step keeps a node at rest: no spike, no new history entry, and
the node is at rest again. -/
theorem update_step_atRest (res : α) (origin lag : Int) (n : Node α) (h : n.atRest) :
    (update_step res origin lag n).atRest ∧
    (update_step res origin lag n).emitted = n.emitted ∧
    (update_step res origin lag n).S_.hist_ = n.S_.hist_ := by
  obtain ⟨hV, hex, hin, h0, h1, hr, hI, b1, b2, b3, b4⟩ := h
  have hlt : n.S_.V_m_ < 105 := by rw [hV]; norm_num
  have hlo : n.S_.V_m_ ≤ 15.6 := by rw [hV]; norm_num
  unfold update_step
  rw [peak_check_of_lt res origin lag n hlt, membrane_update_linear res origin lag n hr hlo]
  refine ⟨⟨?_, ?_, ?_, ?_, ?_, ?_, ?_, ?_, ?_, ?_, ?_⟩, ?_, ?_⟩ <;>
    simp [synaptic_update, hr, hV, hex, hin, h0, h1, hI, b1, b2, b3, b4,
      RingBuffer.get_value]

/-- The loop of update keeps a node at rest. -/
theorem update_loop_atRest (res : α) (origin : Int) (k : Nat) :
    ∀ (lag : Int) (n : Node α), n.atRest →
      (update_loop res origin k lag n).atRest ∧
      (update_loop res origin k lag n).emitted = n.emitted ∧
      (update_loop res origin k lag n).S_.hist_ = n.S_.hist_ := by
  induction k with
  | zero => intro lag n h; exact ⟨h, rfl, rfl⟩
  | succ k ih =>
    intro lag n h
    obtain ⟨s1, s2, s3⟩ := update_step_atRest res origin lag n h
    obtain ⟨r1, r2, r3⟩ := ih (lag + 1) _ s1
    simp only [update_loop]
    exact ⟨r1, r2.trans s2, r3.trans s3⟩

end Rest

section RestRun

variable {α : Type} [LinearOrderedField α] [FloorRing α]

/-- C14: scenario A. From the resting situation (`V_m_ = 0`, no synaptic or
input current, `r_ref_ = 0`, `I_e_ = 0`, empty buffers), after any sequence
of update calls, of any number of steps, `V_m_` is still 0, so that the
potential reported by `get` is `E_L`, `r_ref_` is 0, no spike has been
emitted and `hist_` is unchanged. -/
theorem rest_stays_at_rest (exp : α → α) (res : α) (ops : List (Op α)) (n : Node α)
    (hrest : n.atRest)
    (hops : ∀ op ∈ ops, ∃ origin from_ to_, op = Op.update origin from_ to_) :
    ∃ n1, run exp res ops n = some n1 ∧
      n1.S_.V_m_ = 0 ∧ n1.S_.get_V_m n1.P_ = n.P_.E_L_ ∧ n1.S_.r_ref_ = 0 ∧
      n1.emitted = n.emitted ∧ n1.S_.hist_ = n.S_.hist_ := by
  induction ops generalizing n with
  | nil =>
    exact ⟨n, rfl, hrest.1, by simp [State_.get_V_m, hrest.1], hrest.2.2.2.2.2.1, rfl, rfl⟩
  | cons op ops ih =>
    obtain ⟨origin, from_, to_, hop⟩ := hops op (List.mem_cons_self _ _)
    subst hop
    obtain ⟨s1, s2, s3⟩ := update_loop_atRest res origin (to_ - from_).toNat from_ n hrest
    obtain ⟨n1, r1, r2, r3, r4, r5, r6⟩ := ih (update res origin from_ to_ n) s1
      (fun op hop => hops op (List.mem_cons_of_mem _ hop))
    have hP : (update res origin from_ to_ n).P_ = n.P_ :=
      (update_loop_frame res origin (to_ - from_).toNat from_ n).1
    refine ⟨n1, ?_, r2, ?_, r4, ?_, ?_⟩
    · simpa only [run] using r1
    · rw [r3, hP]
    · exact r5.trans s2
    · exact r6.trans s3

end RestRun

/-- C14 (witness): the node at rest with `I_e = 0`, two update calls of ten
steps each. -/
theorem rest_stays_at_rest_witness :
    ∃ n1, run expStandIn (1 / 10 : ℚ) [Op.update 0 0 10, Op.update 10 0 10]
        (restNode 0 20) = some n1 ∧
      n1.S_.V_m_ = 0 ∧ n1.S_.get_V_m n1.P_ = (restNode (0 : ℚ) 20).P_.E_L_ ∧
      n1.S_.r_ref_ = 0 ∧ n1.emitted = (restNode (0 : ℚ) 20).emitted ∧
      n1.S_.hist_ = (restNode (0 : ℚ) 20).S_.hist_ :=
  rest_stays_at_rest expStandIn (1 / 10 : ℚ) [Op.update 0 0 10, Op.update 10 0 10]
    (restNode 0 20)
    (by simp [Node.atRest, restNode, emptyBuffers, State_.default, Parameters_.default])
    (by
      intro op hop
      simp only [List.mem_cons, List.mem_singleton, List.not_mem_nil, or_false] at hop
      rcases hop with h | h <;> exact ⟨_, _, _, h⟩)

/-! ## C15 to C19: the branches of one update step -/

/-- C15 (as stated, refuted): an active node with `V_m_ = 0`,
`i_syn_ex_ = 260`, no other current, enhancement 1, `P21ex_ = 1/260` and
`P20_ = 1/250`. The step gives `V_m_ = 1`; the formula of the claim, in which
`P20_` multiplies the synaptic term as well, gives 1/250. -/
theorem linear_step_claim_fails :
    (loadedNode (0 : ℚ) 0 260 0 0 0 1 0 2).S_.r_ref_ = 0 ∧
    (loadedNode (0 : ℚ) 0 260 0 0 0 1 0 2).S_.V_m_ ≤ 15.6 ∧
    (update_step (1 / 10 : ℚ) 0 0 (loadedNode 0 0 260 0 0 0 1 0 2)).S_.V_m_ = 1 ∧
    (loadedNode (0 : ℚ) 0 260 0 0 0 1 0 2).S_.V_m_
        * (loadedNode (0 : ℚ) 0 260 0 0 0 1 0 2).V_.P22_
      + (loadedNode (0 : ℚ) 0 260 0 0 0 1 0 2).S_.i_syn_in_
        * (loadedNode (0 : ℚ) 0 260 0 0 0 1 0 2).V_.P21in_
      + ((loadedNode (0 : ℚ) 0 260 0 0 0 1 0 2).S_.i_syn_ex_
          * (loadedNode (0 : ℚ) 0 260 0 0 0 1 0 2).V_.P21ex_
        + ((loadedNode (0 : ℚ) 0 260 0 0 0 1 0 2).P_.I_e_
          + (loadedNode (0 : ℚ) 0 260 0 0 0 1 0 2).S_.i_0_))
        * (loadedNode (0 : ℚ) 0 260 0 0 0 1 0 2).V_.P20_
        * (loadedNode (0 : ℚ) 0 260 0 0 0 1 0 2).S_.enhancement = 1 / 250 := by
  norm_num [update_step, synaptic_update, membrane_update, peak_check, loadedNode, restNode,
    emptyBuffers, RingBuffer.get_value, State_.default, Parameters_.default]

section StepTheorems

variable {α : Type} [LinearOrderedField α]

/-- The synaptic part of a step does not touch the potential, the refractory
counter, the history or the spikes emitted. -/
theorem synaptic_update_frame (lag : Int) (n : Node α) :
    (synaptic_update lag n).S_.V_m_ = n.S_.V_m_ ∧
    (synaptic_update lag n).S_.r_ref_ = n.S_.r_ref_ ∧
    (synaptic_update lag n).S_.hist_ = n.S_.hist_ ∧
    (synaptic_update lag n).emitted = n.emitted :=
  ⟨rfl, rfl, rfl, rfl⟩

/-- C15 (amended): in every update step that starts with `r_ref_ = 0` and
`V_m_ <= 15.6`, the new potential is
`V * P22_ + I_in * P21in_ + (I_ex * P21ex_ + (I_e + I_0) * P20_) * enhancement`
with the values at the start of the step: `P20_` multiplies the external and
input current only. -/
theorem linear_step (res : α) (origin lag : Int) (n : Node α)
    (hr : n.S_.r_ref_ = 0) (hlo : n.S_.V_m_ ≤ 15.6) :
    (update_step res origin lag n).S_.V_m_ =
      n.S_.V_m_ * n.V_.P22_ + n.S_.i_syn_in_ * n.V_.P21in_
        + (n.S_.i_syn_ex_ * n.V_.P21ex_ + (n.P_.I_e_ + n.S_.i_0_) * n.V_.P20_)
          * n.S_.enhancement := by
  have hlt : n.S_.V_m_ < 105 := lt_of_le_of_lt hlo (by norm_num)
  unfold update_step
  rw [peak_check_of_lt res origin lag n hlt, membrane_update_linear res origin lag n hr hlo]
  rfl

/-- C16: in every update step at offset `lag`, refractory or not, spiking or
not, `i_syn_ex_` becomes `i_syn_ex_ * P11ex_ + (1 - P11ex_) * i_1_` plus the
buffered excitatory spikes of `lag`, `i_syn_in_` becomes
`i_syn_in_ * P11in_` plus the buffered inhibitory spikes, and `i_0_`, `i_1_`
become the buffered currents of `lag`, all from the values at the start of
the step. The potential of the step is the one computed before these
assignments, and in the linear case it is the propagator formula over the
synaptic currents and `i_0_` of the start of the step. -/
theorem synaptic_step (res : α) (origin lag : Int) (n : Node α) :
    (update_step res origin lag n).S_.i_syn_ex_ =
      n.S_.i_syn_ex_ * n.V_.P11ex_ + (1 - n.V_.P11ex_) * n.S_.i_1_
        + n.B_.spikes_ex_.buffer_ lag ∧
    (update_step res origin lag n).S_.i_syn_in_ =
      n.S_.i_syn_in_ * n.V_.P11in_ + n.B_.spikes_in_.buffer_ lag ∧
    (update_step res origin lag n).S_.i_0_ = n.B_.currents_0.buffer_ lag ∧
    (update_step res origin lag n).S_.i_1_ = n.B_.currents_1.buffer_ lag ∧
    (update_step res origin lag n).S_.V_m_ =
      (membrane_update res origin lag (peak_check res origin lag n)).S_.V_m_ ∧
    (n.S_.r_ref_ = 0 → n.S_.V_m_ ≤ 15.6 →
      (update_step res origin lag n).S_.V_m_ =
        n.S_.V_m_ * n.V_.P22_ + n.S_.i_syn_in_ * n.V_.P21in_
          + (n.S_.i_syn_ex_ * n.V_.P21ex_ + (n.P_.I_e_ + n.S_.i_0_) * n.V_.P20_)
            * n.S_.enhancement) := by
  have hpre : (membrane_update res origin lag (peak_check res origin lag n)).S_.i_syn_ex_
        = n.S_.i_syn_ex_ ∧
      (membrane_update res origin lag (peak_check res origin lag n)).S_.i_syn_in_
        = n.S_.i_syn_in_ ∧
      (membrane_update res origin lag (peak_check res origin lag n)).S_.i_1_ = n.S_.i_1_ ∧
      (membrane_update res origin lag (peak_check res origin lag n)).V_ = n.V_ ∧
      (membrane_update res origin lag (peak_check res origin lag n)).B_ = n.B_ := by
    simp only [membrane_update, latency_branch, peak_check, Node.emit]
    split_ifs <;> exact ⟨rfl, rfl, rfl, rfl, rfl⟩
  obtain ⟨p1, p2, p3, p4, p5⟩ := hpre
  refine ⟨?_, ?_, ?_, ?_, rfl, ?_⟩
  · simp only [update_step, synaptic_update, RingBuffer.get_value, p1, p3, p4, p5]
  · simp only [update_step, synaptic_update, RingBuffer.get_value, p2, p4, p5]
  · simp only [update_step, synaptic_update, RingBuffer.get_value, p5]
  · simp only [update_step, synaptic_update, RingBuffer.get_value, p5]
  · intro hr hlo
    have hlt : n.S_.V_m_ < 105 := lt_of_le_of_lt hlo (by norm_num)
    unfold update_step
    rw [peak_check_of_lt res origin lag n hlt, membrane_update_linear res origin lag n hr hlo]
    rfl

end StepTheorems

/-- C15 (witness): an active node with `V_m_ = 10`, `I_e_ = 500`,
`i_syn_ex_ = 260`, `i_syn_in_ = -130`, `i_0_ = 250` and enhancement 2. -/
theorem linear_step_witness :
    (update_step (1 / 10 : ℚ) 0 0 (loadedNode 500 10 260 (-130) 250 0 2 0 2)).S_.V_m_
      = 33 / 2 :=
  (linear_step (1 / 10 : ℚ) 0 0 (loadedNode 500 10 260 (-130) 250 0 2 0 2)
    (by simp [loadedNode, State_.default])
    (by norm_num [loadedNode, State_.default])).trans
    (by norm_num [loadedNode, restNode, State_.default, Parameters_.default])

section BranchTheorems

variable {α : Type} [LinearOrderedField α]

/-- A step of the latency branch whose candidate stays below the peak: the
potential is the candidate, and there is no spike and no history entry. -/
theorem update_step_latency_no_spike (res : α) (origin lag : Int) (n : Node α)
    (hr : n.S_.r_ref_ = 0) (hlo : 15.6 < n.S_.V_m_) (hhi : n.S_.V_m_ < 105)
    (hc : n.S_.V_m_ + ((n.S_.V_m_ / 15 - 1) ^ 2 * n.P_.dt)
      / (1 - (n.S_.V_m_ / 15 - 1) * n.P_.dt) * 15 < 105) :
    (update_step res origin lag n).S_.V_m_ =
      n.S_.V_m_ + ((n.S_.V_m_ / 15 - 1) ^ 2 * n.P_.dt)
        / (1 - (n.S_.V_m_ / 15 - 1) * n.P_.dt) * 15 ∧
    (update_step res origin lag n).S_.r_ref_ = 0 ∧
    (update_step res origin lag n).emitted = n.emitted ∧
    (update_step res origin lag n).S_.hist_ = n.S_.hist_ := by
  have hc2 : ¬ (105 : α) ≤ n.S_.V_m_ + ((n.S_.V_m_ / 15 - 1) ^ 2 * n.P_.dt)
      / (1 - (n.S_.V_m_ / 15 - 1) * n.P_.dt) * 15 := not_le.mpr hc
  simp [update_step, synaptic_update, membrane_update, peak_check, not_le.mpr hhi, hr, hlo,
    latency_branch, hc2]

/-- C17: in every update step that starts with `r_ref_ = 0` and
`15.6 < V_m_ < 105` (and a nonzero denominator), the candidate potential is
`V + ((V/15 - 1)^2 * h / (1 - (V/15 - 1) * h)) * 15` with `h = P_.dt`, an
expression in `V_m_` and `dt` only. If the candidate is `>= 105` the step
ends with `V_m_ = 105`, `r_ref_ = RefractoryCounts_` and one spike emitted;
otherwise `V_m_` is the candidate, `r_ref_` stays 0 and no spike is
emitted. -/
theorem latency_step (res : α) (origin lag : Int) (n : Node α)
    (hr : n.S_.r_ref_ = 0) (hlo : 15.6 < n.S_.V_m_) (hhi : n.S_.V_m_ < 105)
    (_hden : 1 - (n.S_.V_m_ / 15 - 1) * n.P_.dt ≠ 0) :
    (n.S_.V_m_ + ((n.S_.V_m_ / 15 - 1) ^ 2 * n.P_.dt
        / (1 - (n.S_.V_m_ / 15 - 1) * n.P_.dt)) * 15 ≥ 105 →
      (update_step res origin lag n).S_.V_m_ = 105 ∧
      (update_step res origin lag n).S_.r_ref_ = n.V_.RefractoryCounts_ ∧
      (update_step res origin lag n).emitted =
        n.emitted ++ [{ spiketime_step := origin + lag + 1, lag := lag }]) ∧
    (n.S_.V_m_ + ((n.S_.V_m_ / 15 - 1) ^ 2 * n.P_.dt
        / (1 - (n.S_.V_m_ / 15 - 1) * n.P_.dt)) * 15 < 105 →
      (update_step res origin lag n).S_.V_m_ =
        n.S_.V_m_ + ((n.S_.V_m_ / 15 - 1) ^ 2 * n.P_.dt
          / (1 - (n.S_.V_m_ / 15 - 1) * n.P_.dt)) * 15 ∧
      (update_step res origin lag n).S_.r_ref_ = 0 ∧
      (update_step res origin lag n).emitted = n.emitted) := by
  refine ⟨fun hc => ?_, fun hc => ?_⟩
  · obtain ⟨a, b, c, -⟩ := update_step_latency_spike res origin lag n hr hlo hhi hc
    exact ⟨a, b, c⟩
  · obtain ⟨a, b, c, -⟩ := update_step_latency_no_spike res origin lag n hr hlo hhi hc
    exact ⟨a, b, c⟩

end BranchTheorems

/-- C17 (witness): with `dt = 1/10`, a node at `V_m_ = 100` has a candidate
above 105 and spikes; a node at `V_m_ = 30` moves to the candidate 95/3
without a spike. -/
theorem latency_step_witness :
    ((update_step (1 / 10 : ℚ) 0 0 (chargedNode 100 2)).S_.V_m_ = 105 ∧
      (update_step (1 / 10 : ℚ) 0 0 (chargedNode 100 2)).S_.r_ref_ = 2 ∧
      (update_step (1 / 10 : ℚ) 0 0 (chargedNode 100 2)).emitted = [⟨1, 0⟩]) ∧
    ((update_step (1 / 10 : ℚ) 0 0 (chargedNode 30 2)).S_.V_m_ = 95 / 3 ∧
      (update_step (1 / 10 : ℚ) 0 0 (chargedNode 30 2)).S_.r_ref_ = 0 ∧
      (update_step (1 / 10 : ℚ) 0 0 (chargedNode 30 2)).emitted = []) := by
  constructor
  · have h := (latency_step (1 / 10 : ℚ) 0 0 (chargedNode 100 2)
      (by simp [chargedNode, State_.default])
      (by norm_num [chargedNode, State_.default])
      (by norm_num [chargedNode, State_.default])
      (by norm_num [chargedNode, restNode, State_.default, Parameters_.default])).1
      (by norm_num [chargedNode, restNode, State_.default, Parameters_.default])
    simpa [chargedNode, restNode] using h
  · have h := (latency_step (1 / 10 : ℚ) 0 0 (chargedNode 30 2)
      (by simp [chargedNode, State_.default])
      (by norm_num [chargedNode, State_.default])
      (by norm_num [chargedNode, State_.default])
      (by norm_num [chargedNode, restNode, State_.default, Parameters_.default])).2
      (by norm_num [chargedNode, restNode, State_.default, Parameters_.default])
    refine ⟨h.1.trans ?_, h.2.1, h.2.2.trans ?_⟩
    · norm_num [chargedNode, restNode, State_.default, Parameters_.default]
    · simp [chargedNode]

section TimestampTheorems

variable {α : Type} [LinearOrderedField α]

/-- C18: when a step starts with `V_m_ >= 105`, the peak check hands step
`origin + lag + 1` to `set_spiketime` and appends the time in ms of that step
to `hist_`; these are the only spike and entry of the step unless
`RefractoryCounts_` is 0, in which case the latency branch of the same step
may add a second spike with the raw loop index as entry. When a step spikes
through the latency branch, `set_spiketime` receives step
`origin + lag + 1` as well, but the entry appended to `hist_` is the raw loop
index `lag`. -/
theorem spike_timestamps (res : α) (origin lag : Int) (n : Node α) :
    (n.S_.V_m_ ≥ 105 →
      ((update_step res origin lag n).emitted =
          n.emitted ++ [{ spiketime_step := origin + lag + 1, lag := lag }] ∧
        (update_step res origin lag n).S_.hist_ =
          n.S_.hist_ ++ [stepToMs res (origin + lag + 1)]) ∨
      (n.V_.RefractoryCounts_ = 0 ∧
        (update_step res origin lag n).emitted =
          n.emitted ++ [{ spiketime_step := origin + lag + 1, lag := lag },
            { spiketime_step := origin + lag + 1, lag := lag }] ∧
        (update_step res origin lag n).S_.hist_ =
          n.S_.hist_ ++ [stepToMs res (origin + lag + 1), (lag : α)])) ∧
    (n.S_.V_m_ ≥ 105 → n.V_.RefractoryCounts_ ≠ 0 →
      (update_step res origin lag n).emitted =
        n.emitted ++ [{ spiketime_step := origin + lag + 1, lag := lag }] ∧
      (update_step res origin lag n).S_.hist_ =
        n.S_.hist_ ++ [stepToMs res (origin + lag + 1)]) ∧
    (n.S_.r_ref_ = 0 → 15.6 < n.S_.V_m_ → n.S_.V_m_ < 105 →
      n.S_.V_m_ + ((n.S_.V_m_ / 15 - 1) ^ 2 * n.P_.dt)
        / (1 - (n.S_.V_m_ / 15 - 1) * n.P_.dt) * 15 ≥ 105 →
      (update_step res origin lag n).emitted =
        n.emitted ++ [{ spiketime_step := origin + lag + 1, lag := lag }] ∧
      (update_step res origin lag n).S_.hist_ = n.S_.hist_ ++ [(lag : α)]) := by
  refine ⟨fun hV => ?_, fun hV hN => ?_, fun hr hlo hhi hc => ?_⟩
  · by_cases hN : n.V_.RefractoryCounts_ = 0
    · have hV2 : (105 : α) ≤ n.S_.V_m_ := hV
      have h156 : (15.6 : α) < 105 := by norm_num
      by_cases hc : (105 : α) ≤ 105 + ((105 / 15 - 1) ^ 2 * n.P_.dt)
          / (1 - (105 / 15 - 1) * n.P_.dt) * 15
      · right
        refine ⟨hN, ?_, ?_⟩ <;>
          simp [update_step, synaptic_update, membrane_update, peak_check, hV2, hN, h156,
            latency_branch, Node.emit, Node.get_spiketime_ms, hc]
      · left
        constructor <;>
          simp [update_step, synaptic_update, membrane_update, peak_check, hV2, hN, h156,
            latency_branch, Node.emit, Node.get_spiketime_ms, hc]
    · left
      obtain ⟨-, -, c, d⟩ := update_step_peak res origin lag n hV hN
      exact ⟨c, d⟩
  · obtain ⟨-, -, c, d⟩ := update_step_peak res origin lag n hV hN
    exact ⟨c, d⟩
  · obtain ⟨-, -, c, d⟩ := update_step_latency_spike res origin lag n hr hlo hhi hc
    exact ⟨c, d⟩

/-- One update step keeps the refractory counter between 0 and
`RefractoryCounts_`. -/
theorem update_step_r_ref_bounds (res : α) (origin lag : Int) (n : Node α)
    (h0 : 0 ≤ n.S_.r_ref_) (hN : n.S_.r_ref_ ≤ n.V_.RefractoryCounts_) :
    0 ≤ (update_step res origin lag n).S_.r_ref_ ∧
    (update_step res origin lag n).S_.r_ref_ ≤ n.V_.RefractoryCounts_ := by
  simp only [update_step, synaptic_update, membrane_update, latency_branch, peak_check,
    Node.emit]
  split_ifs <;> (try dsimp only at *) <;> omega

/-- The loop of update keeps the refractory counter between 0 and
`RefractoryCounts_`. -/
theorem update_loop_r_ref_bounds (res : α) (origin : Int) (k : Nat) :
    ∀ (lag : Int) (n : Node α), 0 ≤ n.S_.r_ref_ →
      n.S_.r_ref_ ≤ n.V_.RefractoryCounts_ →
      0 ≤ (update_loop res origin k lag n).S_.r_ref_ ∧
      (update_loop res origin k lag n).S_.r_ref_ ≤ n.V_.RefractoryCounts_ := by
  induction k with
  | zero => intro lag n h0 hN; exact ⟨h0, hN⟩
  | succ k ih =>
    intro lag n h0 hN
    obtain ⟨a, b⟩ := update_step_r_ref_bounds res origin lag n h0 hN
    have f := (update_step_frame res origin lag n).2.2.2
    have := ih (lag + 1) (update_step res origin lag n) a (by rw [f]; exact b)
    rw [f] at this
    simpa only [update_loop] using this

end TimestampTheorems

section RefractoryStep

variable {α : Type} [LinearOrderedField α] [FloorRing α]

/-- A run keeps the refractory counter between 0 and `RefractoryCounts_`,
which it does not change. -/
theorem run_r_ref_bounds (exp : α → α) (res : α) (ops : List (Op α)) :
    ∀ (m m1 : Node α), 0 ≤ m.S_.r_ref_ → m.S_.r_ref_ ≤ m.V_.RefractoryCounts_ →
      run exp res ops m = some m1 →
      0 ≤ m1.S_.r_ref_ ∧ m1.S_.r_ref_ ≤ m1.V_.RefractoryCounts_ ∧
      m1.V_.RefractoryCounts_ = m.V_.RefractoryCounts_ := by
  induction ops with
  | nil =>
    intro m m1 h0 hN h
    simp only [run, Option.some.injEq] at h
    subst h
    exact ⟨h0, hN, rfl⟩
  | cons op ops ih =>
    intro m m1 h0 hN h
    cases op with
    | update origin from_ to_ =>
      simp only [run, update] at h
      obtain ⟨a, b⟩ := update_loop_r_ref_bounds res origin (to_ - from_).toNat from_ m h0 hN
      have f := (update_loop_frame res origin (to_ - from_).toNat from_ m).2.2.2
      obtain ⟨c1, c2, c3⟩ := ih _ m1 a (by rw [f]; exact b) h
      exact ⟨c1, c2, c3.trans f⟩
    | spike e =>
      simp only [run] at h
      cases hs : handle_spike exp e m with
      | none => rw [hs] at h; cases h
      | some m2 =>
        rw [hs] at h
        simp only at h
        have f := handle_spike_frame exp e m m2 hs
        obtain ⟨c1, c2, c3⟩ := ih m2 m1 (by rw [f.2.2.2.2.2.1]; exact h0)
          (by rw [f.2.2.2.2.2.1, f.2.1]; exact hN) h
        exact ⟨c1, c2, by rw [c3, f.2.1]⟩
    | current e =>
      simp only [run] at h
      have f := handle_current_frame e m
      obtain ⟨c1, c2, c3⟩ := ih _ m1 (by rw [f.2.2.1]; exact h0)
        (by rw [f.2.2.1, f.2.1]; exact hN) h
      exact ⟨c1, c2, by rw [c3, f.2.1]⟩

/-- C19: every update step that starts with `r_ref_ = k > 0` and
`V_m_ < 105` ends, whatever the currents and buffers hold, with
`r_ref_ = k - 1` and `V_m_ = 0.1`, and emits no spike; from `r_ref_ = 1` the
node is active (`r_ref_ = 0`) after the step. In every run of update calls
and events that starts with `0 <= r_ref_ <= RefractoryCounts_`, the counter
stays within these bounds. -/
theorem refractory_step (exp : α → α) (res : α) (origin lag : Int) (n : Node α)
    (hV : n.S_.V_m_ < 105) (hk : 0 < n.S_.r_ref_) :
    (update_step res origin lag n).S_.r_ref_ = n.S_.r_ref_ - 1 ∧
    (update_step res origin lag n).S_.V_m_ = 0.1 ∧
    (update_step res origin lag n).emitted = n.emitted ∧
    (n.S_.r_ref_ = 1 → (update_step res origin lag n).S_.r_ref_ = 0) ∧
    (∀ (ops : List (Op α)) (m m1 : Node α),
      0 ≤ m.S_.r_ref_ → m.S_.r_ref_ ≤ m.V_.RefractoryCounts_ →
      run exp res ops m = some m1 →
      0 ≤ m1.S_.r_ref_ ∧ m1.S_.r_ref_ ≤ m1.V_.RefractoryCounts_) := by
  obtain ⟨a, b, c, -⟩ := update_step_refractory res origin lag n hV (by omega)
  refine ⟨b, a, c, fun h1 => by rw [b, h1]; rfl, fun ops m m1 h0 hN h => ?_⟩
  obtain ⟨c1, c2, -⟩ := run_r_ref_bounds exp res ops m m1 h0 hN h
  exact ⟨c1, c2⟩

end RefractoryStep

/-- C19 (witness): a node with `r_ref_ = 1`, `V_m_ = 50` and currents of all
kinds is on the floor and active after one step. -/
theorem refractory_step_witness :
    (update_step (1 / 10 : ℚ) 0 0 (loadedNode 500 50 260 (-130) 250 40 2 1 2)).S_.r_ref_ = 0 ∧
    (update_step (1 / 10 : ℚ) 0 0 (loadedNode 500 50 260 (-130) 250 40 2 1 2)).S_.V_m_ = 0.1 ∧
    (update_step (1 / 10 : ℚ) 0 0 (loadedNode 500 50 260 (-130) 250 40 2 1 2)).emitted = [] := by
  obtain ⟨-, b, c, d, -⟩ := refractory_step expStandIn (1 / 10 : ℚ) 0 0
    (loadedNode 500 50 260 (-130) 250 40 2 1 2)
    (by norm_num [loadedNode, State_.default])
    (by simp [loadedNode, State_.default])
  exact ⟨d (by simp [loadedNode, State_.default]), b, by rw [c]; simp [loadedNode]⟩

/-! ## C20: the propagators -/

section CalibrateLemmas

variable {α : Type} [LinearOrderedField α]

/-- What `calibrate` writes: the step size, the six propagators and the
refractory step count, as functions of the parameters, and nothing else of
`P_` and `V_`. -/
theorem calibrate_fields (exp : α → α) (propagator_32 : α → α → α → α → α)
    (ms_to_steps : α → Int) (h : α) (n : Node α) :
    (calibrate exp propagator_32 ms_to_steps h n).P_ = { n.P_ with dt := h } ∧
    (calibrate exp propagator_32 ms_to_steps h n).V_ =
      { P11ex_ := exp (-h / n.P_.tau_ex_),
        P11in_ := exp (-h / n.P_.tau_in_),
        P22_ := exp (-h / n.P_.Tau_),
        P21ex_ := propagator_32 n.P_.tau_ex_ n.P_.Tau_ n.P_.C_ h,
        P21in_ := propagator_32 n.P_.tau_in_ n.P_.Tau_ n.P_.C_ h,
        P20_ := n.P_.Tau_ / n.P_.C_ * (1 - exp (-h / n.P_.Tau_)),
        RefractoryCounts_ := ms_to_steps n.P_.t_ref_,
        weighted_spikes_ex_ := n.V_.weighted_spikes_ex_,
        weighted_spikes_in_ := n.V_.weighted_spikes_in_ } :=
  ⟨rfl, rfl⟩

end CalibrateLemmas

/-- C20: over the reals with the real exponential, for every step size
`h > 0` and every record with `Tau_`, `tau_ex_`, `tau_in_`, `C_ > 0`,
`calibrate` yields `P11ex_ = exp(-h/tau_ex_)`, `P11in_ = exp(-h/tau_in_)`
and `P22_ = exp(-h/Tau_)`, each in `(0, 1]`, and
`P20_ = Tau_/C_ * (1 - P22_) >= 0`. The six coefficients depend only on the
time constants, the capacitance and `h`: a node that agrees on these gets
the same coefficients, and a second calibration leaves `V_` as the first
one made it. -/
theorem propagator_bounds (propagator_32 : ℝ → ℝ → ℝ → ℝ → ℝ) (ms_to_steps : ℝ → Int)
    (h : ℝ) (n : Node ℝ)
    (hh : 0 < h) (hTau : 0 < n.P_.Tau_) (hex : 0 < n.P_.tau_ex_)
    (hin : 0 < n.P_.tau_in_) (hC : 0 < n.P_.C_) :
    ((calibrate Real.exp propagator_32 ms_to_steps h n).V_.P11ex_
        = Real.exp (-h / n.P_.tau_ex_) ∧
      0 < (calibrate Real.exp propagator_32 ms_to_steps h n).V_.P11ex_ ∧
      (calibrate Real.exp propagator_32 ms_to_steps h n).V_.P11ex_ ≤ 1) ∧
    ((calibrate Real.exp propagator_32 ms_to_steps h n).V_.P11in_
        = Real.exp (-h / n.P_.tau_in_) ∧
      0 < (calibrate Real.exp propagator_32 ms_to_steps h n).V_.P11in_ ∧
      (calibrate Real.exp propagator_32 ms_to_steps h n).V_.P11in_ ≤ 1) ∧
    ((calibrate Real.exp propagator_32 ms_to_steps h n).V_.P22_
        = Real.exp (-h / n.P_.Tau_) ∧
      0 < (calibrate Real.exp propagator_32 ms_to_steps h n).V_.P22_ ∧
      (calibrate Real.exp propagator_32 ms_to_steps h n).V_.P22_ ≤ 1) ∧
    ((calibrate Real.exp propagator_32 ms_to_steps h n).V_.P20_
        = n.P_.Tau_ / n.P_.C_
          * (1 - (calibrate Real.exp propagator_32 ms_to_steps h n).V_.P22_) ∧
      0 ≤ (calibrate Real.exp propagator_32 ms_to_steps h n).V_.P20_) ∧
    (∀ m : Node ℝ, m.P_.tau_ex_ = n.P_.tau_ex_ → m.P_.tau_in_ = n.P_.tau_in_ →
      m.P_.Tau_ = n.P_.Tau_ → m.P_.C_ = n.P_.C_ →
      (calibrate Real.exp propagator_32 ms_to_steps h m).V_.P11ex_
        = (calibrate Real.exp propagator_32 ms_to_steps h n).V_.P11ex_ ∧
      (calibrate Real.exp propagator_32 ms_to_steps h m).V_.P11in_
        = (calibrate Real.exp propagator_32 ms_to_steps h n).V_.P11in_ ∧
      (calibrate Real.exp propagator_32 ms_to_steps h m).V_.P22_
        = (calibrate Real.exp propagator_32 ms_to_steps h n).V_.P22_ ∧
      (calibrate Real.exp propagator_32 ms_to_steps h m).V_.P21ex_
        = (calibrate Real.exp propagator_32 ms_to_steps h n).V_.P21ex_ ∧
      (calibrate Real.exp propagator_32 ms_to_steps h m).V_.P21in_
        = (calibrate Real.exp propagator_32 ms_to_steps h n).V_.P21in_ ∧
      (calibrate Real.exp propagator_32 ms_to_steps h m).V_.P20_
        = (calibrate Real.exp propagator_32 ms_to_steps h n).V_.P20_) ∧
    (calibrate Real.exp propagator_32 ms_to_steps h
        (calibrate Real.exp propagator_32 ms_to_steps h n)).V_
      = (calibrate Real.exp propagator_32 ms_to_steps h n).V_ := by
  have hdecay : ∀ t : ℝ, 0 < t → 0 < Real.exp (-h / t) ∧ Real.exp (-h / t) ≤ 1 := by
    intro t ht
    refine ⟨Real.exp_pos _, Real.exp_le_one_iff.mpr ?_⟩
    have := div_pos hh ht
    rw [neg_div]
    linarith
  obtain ⟨-, hV⟩ := calibrate_fields Real.exp propagator_32 ms_to_steps h n
  refine ⟨⟨?_, ?_, ?_⟩, ⟨?_, ?_, ?_⟩, ⟨?_, ?_, ?_⟩, ⟨?_, ?_⟩, ?_, ?_⟩
  · rw [hV]
  · rw [hV]; exact (hdecay _ hex).1
  · rw [hV]; exact (hdecay _ hex).2
  · rw [hV]
  · rw [hV]; exact (hdecay _ hin).1
  · rw [hV]; exact (hdecay _ hin).2
  · rw [hV]
  · rw [hV]; exact (hdecay _ hTau).1
  · rw [hV]; exact (hdecay _ hTau).2
  · rw [hV]
  · rw [hV]
    exact mul_nonneg (div_pos hTau hC).le (sub_nonneg.mpr (hdecay _ hTau).2)
  · intro m h1 h2 h3 h4
    obtain ⟨-, hVm⟩ := calibrate_fields Real.exp propagator_32 ms_to_steps h m
    rw [hV, hVm]
    simp only [h1, h2, h3, h4, and_self]
  · obtain ⟨hP, -⟩ := calibrate_fields Real.exp propagator_32 ms_to_steps h n
    obtain ⟨-, hV2⟩ := calibrate_fields Real.exp propagator_32 ms_to_steps h
      (calibrate Real.exp propagator_32 ms_to_steps h n)
    rw [hV2, hP, hV]

/-- C20 (witness): the default parameters at the step size 0.1 ms. -/
theorem propagator_bounds_witness :
    (0 < (calibrate Real.exp (fun _ _ _ _ => 0) (fun _ => 20) (1 / 10)
        (restNode (0 : ℝ) 20)).V_.P22_ ∧
      (calibrate Real.exp (fun _ _ _ _ => 0) (fun _ => 20) (1 / 10)
        (restNode (0 : ℝ) 20)).V_.P22_ ≤ 1) ∧
    0 ≤ (calibrate Real.exp (fun _ _ _ _ => 0) (fun _ => 20) (1 / 10)
        (restNode (0 : ℝ) 20)).V_.P20_ :=
  have h := propagator_bounds (fun _ _ _ _ => 0) (fun _ => 20) (1 / 10)
    (restNode (0 : ℝ) 20) (by norm_num)
    (by norm_num [restNode, Parameters_.default])
    (by norm_num [restNode, Parameters_.default])
    (by norm_num [restNode, Parameters_.default])
    (by norm_num [restNode, Parameters_.default])
  ⟨h.2.2.1.2, h.2.2.2.1.2⟩

/-! ## C21 to C23: calibrate and the state -/

/-- The loop at the end of `calibrate` appends `k` zeros. -/
theorem calibrate_init_eq {α : Type} [LinearOrderedField α] (k : Nat) :
    ∀ l : List α, calibrate_init k l = l ++ List.replicate k 0 := by
  induction k with
  | zero => intro l; simp [calibrate_init]
  | succ k ih =>
    intro l
    rw [calibrate_init, ih, List.replicate_succ, List.append_assoc]
    rfl

/-- C21 (as stated, refuted): on a node with one modulator and an empty
`t_lastspike_`, `calibrate` changes `S_` (it appends an entry to
`t_lastspike_`), and a second call changes it again. -/
theorem calibrate_changes_state :
    (calibrate expStandIn (fun _ _ _ _ => 0) (fun _ => 20) (1 / 10)
        { restNode (0 : ℚ) 20 with
          P_ := { (restNode (0 : ℚ) 20).P_ with stimulator_ := [7] } }).S_.t_lastspike_
      = [0] ∧
    ({ restNode (0 : ℚ) 20 with
        P_ := { (restNode (0 : ℚ) 20).P_ with stimulator_ := [7] } } : Node ℚ).S_.t_lastspike_
      = [] ∧
    (calibrate expStandIn (fun _ _ _ _ => 0) (fun _ => 20) (1 / 10)
        (calibrate expStandIn (fun _ _ _ _ => 0) (fun _ => 20) (1 / 10)
          { restNode (0 : ℚ) 20 with
            P_ := { (restNode (0 : ℚ) 20).P_ with stimulator_ := [7] } })).S_.t_lastspike_
      = [0, 0] := by
  simp [calibrate, calibrate_init, restNode, State_.default]

section CalibrateState

variable {α : Type} [LinearOrderedField α]

/-- C21 (amended): `calibrate` leaves the potential, the currents, the
refractory counter, the enhancement and the history as they were, and keeps
every existing entry of `t_lastspike_` in its place: it only appends entries
to `t_lastspike_`, each of them 0, and afterwards `t_lastspike_` has an entry
for every configured modulator (the modulators themselves are not changed);
on a node whose `t_lastspike_` is empty the result is exactly one entry 0 per
modulator. With no modulator configured it leaves `S_` unchanged, and then
calling it twice leaves the same state as calling it once. -/
theorem calibrate_state (exp : α → α) (propagator_32 : α → α → α → α → α)
    (ms_to_steps : α → Int) (h : α) (n : Node α) :
    (calibrate exp propagator_32 ms_to_steps h n).S_.V_m_ = n.S_.V_m_ ∧
    (calibrate exp propagator_32 ms_to_steps h n).S_.i_0_ = n.S_.i_0_ ∧
    (calibrate exp propagator_32 ms_to_steps h n).S_.i_1_ = n.S_.i_1_ ∧
    (calibrate exp propagator_32 ms_to_steps h n).S_.i_syn_ex_ = n.S_.i_syn_ex_ ∧
    (calibrate exp propagator_32 ms_to_steps h n).S_.i_syn_in_ = n.S_.i_syn_in_ ∧
    (calibrate exp propagator_32 ms_to_steps h n).S_.r_ref_ = n.S_.r_ref_ ∧
    (calibrate exp propagator_32 ms_to_steps h n).S_.Vpositive = n.S_.Vpositive ∧
    (calibrate exp propagator_32 ms_to_steps h n).S_.enhancement = n.S_.enhancement ∧
    (calibrate exp propagator_32 ms_to_steps h n).S_.hist_ = n.S_.hist_ ∧
    (∃ added, (calibrate exp propagator_32 ms_to_steps h n).S_.t_lastspike_
      = n.S_.t_lastspike_ ++ added ∧ ∀ x ∈ added, x = 0) ∧
    (calibrate exp propagator_32 ms_to_steps h n).P_.stimulator_ = n.P_.stimulator_ ∧
    (calibrate exp propagator_32 ms_to_steps h n).P_.stimulator_.length
      ≤ (calibrate exp propagator_32 ms_to_steps h n).S_.t_lastspike_.length ∧
    (∀ i : Nat, i < (calibrate exp propagator_32 ms_to_steps h n).P_.stimulator_.length →
      ∃ t : α, (calibrate exp propagator_32 ms_to_steps h n).S_.t_lastspike_[i]? = some t) ∧
    (n.S_.t_lastspike_ = [] →
      (calibrate exp propagator_32 ms_to_steps h n).S_.t_lastspike_
        = List.replicate n.P_.stimulator_.length 0) ∧
    (n.P_.stimulator_ = [] →
      (calibrate exp propagator_32 ms_to_steps h n).S_ = n.S_ ∧
      (calibrate exp propagator_32 ms_to_steps h
        (calibrate exp propagator_32 ms_to_steps h n)).S_
        = (calibrate exp propagator_32 ms_to_steps h n).S_) := by
  have heq : (calibrate exp propagator_32 ms_to_steps h n).S_.t_lastspike_
      = n.S_.t_lastspike_ ++ List.replicate n.P_.stimulator_.length 0 :=
    calibrate_init_eq n.P_.stimulator_.length n.S_.t_lastspike_
  have hstim : (calibrate exp propagator_32 ms_to_steps h n).P_.stimulator_
      = n.P_.stimulator_ := rfl
  have hlen : (calibrate exp propagator_32 ms_to_steps h n).P_.stimulator_.length
      ≤ (calibrate exp propagator_32 ms_to_steps h n).S_.t_lastspike_.length := by
    rw [heq, hstim, List.length_append, List.length_replicate]
    exact Nat.le_add_left _ _
  refine ⟨rfl, rfl, rfl, rfl, rfl, rfl, rfl, rfl, rfl,
    ⟨List.replicate n.P_.stimulator_.length 0, heq, ?_⟩, hstim, hlen, ?_, ?_, fun hs => ?_⟩
  · intro x hx
    exact List.eq_of_mem_replicate hx
  · intro i hi
    have hi2 : i < (calibrate exp propagator_32 ms_to_steps h n).S_.t_lastspike_.length :=
      lt_of_lt_of_le hi hlen
    exact ⟨_, List.getElem?_eq_getElem hi2⟩
  · intro he
    rw [heq, he, List.nil_append]
  · have h1 : (calibrate exp propagator_32 ms_to_steps h n).S_ = n.S_ := by
      simp [calibrate, hs, calibrate_init]
    refine ⟨h1, ?_⟩
    have h3 : (calibrate exp propagator_32 ms_to_steps h
        (calibrate exp propagator_32 ms_to_steps h n)).S_
        = (calibrate exp propagator_32 ms_to_steps h n).S_ := by
      simp [calibrate, hs, calibrate_init]
    exact h3

end CalibrateState

section ThresholdIrrelevant

variable {α : Type} [LinearOrderedField α]

/-- One update step commutes with a change of `Theta_` and `V_reset_`. -/
theorem update_step_theta (res : α) (origin lag : Int) (n : Node α) (theta v_reset : α) :
    update_step res origin lag
        { n with P_ := { n.P_ with Theta_ := theta, V_reset_ := v_reset } }
      = { update_step res origin lag n with
          P_ := { n.P_ with Theta_ := theta, V_reset_ := v_reset } } := by
  simp only [update_step, synaptic_update, membrane_update, latency_branch, peak_check,
    Node.emit, Node.get_spiketime_ms]
  split_ifs <;> rfl

/-- C22: the configured threshold and reset potential have no effect on the
dynamics. For a node and the same node with any other `Theta_` and
`V_reset_`, the loop of `update` gives, after every number of steps, the same
state `S_`, the same variables and buffers, and the same spikes emitted; the
parameter records still differ only in `Theta_` and `V_reset_`. A step emits
a spike only when it starts with `V_m_ >= 105` or when the latency branch,
entered above 15.6, reaches 105, and a refractory step ends at 0.1. -/
theorem threshold_and_reset_unused (res : α) (origin : Int) (k : Nat) (lag : Int)
    (n : Node α) (theta v_reset : α) :
    update_loop res origin k lag
        { n with P_ := { n.P_ with Theta_ := theta, V_reset_ := v_reset } }
      = { update_loop res origin k lag n with
          P_ := { n.P_ with Theta_ := theta, V_reset_ := v_reset } } ∧
    (update_loop res origin k lag
        { n with P_ := { n.P_ with Theta_ := theta, V_reset_ := v_reset } }).S_
      = (update_loop res origin k lag n).S_ ∧
    (update_loop res origin k lag
        { n with P_ := { n.P_ with Theta_ := theta, V_reset_ := v_reset } }).emitted
      = (update_loop res origin k lag n).emitted ∧
    ((update_step res origin lag n).emitted = n.emitted ∨
      n.S_.V_m_ ≥ 105 ∨
      (n.S_.r_ref_ = 0 ∧ 15.6 < n.S_.V_m_ ∧ n.S_.V_m_ < 105 ∧
        n.S_.V_m_ + ((n.S_.V_m_ / 15 - 1) ^ 2 * n.P_.dt)
          / (1 - (n.S_.V_m_ / 15 - 1) * n.P_.dt) * 15 ≥ 105)) ∧
    (n.S_.V_m_ < 105 → n.S_.r_ref_ ≠ 0 →
      (update_step res origin lag n).S_.V_m_ = 0.1) := by
  have key : ∀ (k : Nat) (lag : Int) (m : Node α),
      update_loop res origin k lag
          { m with P_ := { m.P_ with Theta_ := theta, V_reset_ := v_reset } }
        = { update_loop res origin k lag m with
            P_ := { m.P_ with Theta_ := theta, V_reset_ := v_reset } } := by
    intro k
    induction k with
    | zero => intro lag m; rfl
    | succ k ih =>
      intro lag m
      simp only [update_loop]
      rw [update_step_theta]
      have hP := (update_step_frame res origin lag m).1
      have := ih (lag + 1) (update_step res origin lag m)
      rw [hP] at this
      exact this
  refine ⟨key k lag n, ?_, ?_, update_step_spike_cases res origin lag n, fun hV hr => ?_⟩
  · rw [key k lag n]
  · rw [key k lag n]
  · exact (update_step_refractory res origin lag n hV hr).1

end ThresholdIrrelevant

section SetStatusLengths

variable {α : Type} [LinearOrderedField α]

/-- A successful `Parameters_::set` returns the record after assignment. -/
theorem set_ok_eq_assign (p q : Parameters_ α) (d : Dict α) (delta_EL : α)
    (h : p.set d = .ok (q, delta_EL)) : q = (p.assign d).1 := by
  unfold Parameters_.set at h
  simp only at h
  split_ifs at h
  injection h with h
  injection h with hq _
  exact hq.symm

/-- The assignments of `Parameters_::set` keep `stimulator_` when the
dictionary has no entry for it. -/
theorem assign_stimulator (p : Parameters_ α) (d : Dict α) (hd : d.stimulator = none) :
    (p.assign d).1.stimulator_ = p.stimulator_ := by
  simp only [Parameters_.assign, updateValue_fst, updateValue_snd, hd]
  cases d.V_reset <;> cases d.V_th <;> simp

/-- `set_status` with a dictionary that has no `stimulator` entry keeps
`stimulator_` and `t_lastspike_`. -/
theorem set_status_lengths (arch : Dict α → Except Exn Unit) (n : Node α) (d : Dict α)
    (hd : d.stimulator = none) :
    (set_status arch n d).1.P_.stimulator_ = n.P_.stimulator_ ∧
    (set_status arch n d).1.S_.t_lastspike_ = n.S_.t_lastspike_ := by
  unfold set_status
  cases hP : n.P_.set d with
  | error ex => exact ⟨rfl, rfl⟩
  | ok r =>
    obtain ⟨ptmp, delta_EL⟩ := r
    cases hA : arch d with
    | error ex => exact ⟨rfl, rfl⟩
    | ok u =>
      simp only
      constructor
      · rw [set_ok_eq_assign n.P_ ptmp d delta_EL hP]
        exact assign_stimulator n.P_ d hd
      · simp only [State_.set]
        split_ifs <;> rfl

end SetStatusLengths

section IndexSafety

variable {α : Type} [LinearOrderedField α] [FloorRing α]

/-- A run keeps the modulator list and the lengths of `t_lastspike_`. -/
theorem run_lengths (exp : α → α) (res : α) (ops : List (Op α)) :
    ∀ (n n1 : Node α), run exp res ops n = some n1 →
      n1.P_ = n.P_ ∧ n1.S_.t_lastspike_.length = n.S_.t_lastspike_.length := by
  induction ops with
  | nil =>
    intro n n1 h
    simp only [run, Option.some.injEq] at h
    subst h
    exact ⟨rfl, rfl⟩
  | cons op ops ih =>
    intro n n1 h
    cases op with
    | update origin from_ to_ =>
      simp only [run, update] at h
      obtain ⟨f1, -, f3, -⟩ := update_loop_frame res origin (to_ - from_).toNat from_ n
      obtain ⟨a, b⟩ := ih _ n1 h
      exact ⟨a.trans f1, by rw [b, f3]⟩
    | spike e =>
      simp only [run] at h
      cases hs : handle_spike exp e n with
      | none => rw [hs] at h; cases h
      | some n2 =>
        rw [hs] at h
        simp only at h
        have f := handle_spike_frame exp e n n2 hs
        obtain ⟨a, b⟩ := ih n2 n1 h
        exact ⟨a.trans f.1, b.trans f.2.2.2.2.2.2.2.2.2.2.2.2⟩
    | current e =>
      simp only [run] at h
      obtain ⟨f1, -, f3, -, -⟩ := handle_current_frame e n
      obtain ⟨a, b⟩ := ih _ n1 h
      exact ⟨a.trans f1, by rw [b, f3]⟩

/-- C23: after `calibrate`, `t_lastspike_` has at least as many entries as
`stimulator_`, and this stays so over every run of update calls and events
(which do not change `stimulator_`): every run returns a node, and every
spike event delivered to it is handled with all accesses
`S_.t_lastspike_[ i ]`, `i < stimulator_.size()`, in bounds.
`handle( SpikeEvent& )` never changes the length of `t_lastspike_` or of
`hist_`, and `set_status` with a dictionary that does not change
`stimulator_` keeps the bound. -/
theorem index_safety (exp : α → α) (propagator_32 : α → α → α → α → α)
    (ms_to_steps : α → Int) (h res : α) (ops : List (Op α)) (e : SpikeEvent α)
    (n : Node α) :
    (calibrate exp propagator_32 ms_to_steps h n).P_.stimulator_.length
      ≤ (calibrate exp propagator_32 ms_to_steps h n).S_.t_lastspike_.length ∧
    (∃ n1, run exp res ops (calibrate exp propagator_32 ms_to_steps h n) = some n1 ∧
      n1.P_.stimulator_.length ≤ n1.S_.t_lastspike_.length ∧
      ∃ n2, handle_spike exp e n1 = some n2) ∧
    (∀ m m1 : Node α, handle_spike exp e m = some m1 →
      m1.S_.t_lastspike_.length = m.S_.t_lastspike_.length ∧
      m1.S_.hist_.length = m.S_.hist_.length) ∧
    (∀ (arch : Dict α → Except Exn Unit) (d : Dict α) (m : Node α),
      d.stimulator = none →
      m.P_.stimulator_.length ≤ m.S_.t_lastspike_.length →
      (set_status arch m d).1.P_.stimulator_.length
        ≤ (set_status arch m d).1.S_.t_lastspike_.length) := by
  have hcal : (calibrate exp propagator_32 ms_to_steps h n).P_.stimulator_.length
      ≤ (calibrate exp propagator_32 ms_to_steps h n).S_.t_lastspike_.length := by
    have : (calibrate exp propagator_32 ms_to_steps h n).S_.t_lastspike_
        = n.S_.t_lastspike_ ++ List.replicate n.P_.stimulator_.length 0 :=
      calibrate_init_eq n.P_.stimulator_.length n.S_.t_lastspike_
    rw [this, (calibrate_fields exp propagator_32 ms_to_steps h n).1]
    simp
  refine ⟨hcal, ?_, fun m m1 hm => ?_, fun arch d m hd hm => ?_⟩
  · obtain ⟨n1, hn1⟩ := run_total exp res ops _ hcal
    obtain ⟨a, b⟩ := run_lengths exp res ops _ n1 hn1
    have hb : n1.P_.stimulator_.length ≤ n1.S_.t_lastspike_.length := by
      rw [a, b]; exact hcal
    exact ⟨n1, hn1, hb, handle_spike_total exp e n1 hb⟩
  · have f := handle_spike_frame exp e m m1 hm
    exact ⟨f.2.2.2.2.2.2.2.2.2.2.2.2, by rw [f.2.2.2.2.2.2.1]⟩
  · obtain ⟨a, b⟩ := set_status_lengths arch m d hd
    rw [a, b]
    exact hm

end IndexSafety

/-! ## C24: escape from the latency regime -/

section LatencyEscape

variable {α : Type} [LinearOrderedField α]

/-- For `0 < h < 1/6` and `15.6 < V < 105` the denominator of the latency
update is positive and the update raises `V` by at least `15 * h * 0.04 ^ 2`. -/
theorem latency_arith (V h : α) (hlo : 15.6 < V) (hhi : V < 105) (h0 : 0 < h)
    (h6 : h < 1 / 6) :
    0 < 1 - (V / 15 - 1) * h ∧
    V + 15 * h * 0.04 ^ 2 ≤ V + ((V / 15 - 1) ^ 2 * h / (1 - (V / 15 - 1) * h)) * 15 := by
  obtain ⟨x, hx⟩ : ∃ x : α, x = V / 15 - 1 := ⟨_, rfl⟩
  rw [← hx]
  have hx1 : (0.04 : α) < x := by
    have : V / 15 = V * (1 / 15) := by ring
    rw [hx, this]
    norm_num at hlo ⊢
    linarith
  have hx2 : x < 6 := by
    have : V / 15 = V * (1 / 15) := by ring
    rw [hx, this]
    linarith
  have hxpos : 0 < x := lt_trans (by norm_num) hx1
  have hxh : x * h < 1 := by
    have h1 : x * h < 6 * h := mul_lt_mul_of_pos_right hx2 h0
    have h2 : 6 * h < 1 := by linarith
    linarith
  have hden : 0 < 1 - x * h := by linarith
  have hden1 : 1 - x * h ≤ 1 := by
    have := mul_pos hxpos h0
    linarith
  refine ⟨hden, ?_⟩
  have hsq : (0.04 : α) ^ 2 ≤ x ^ 2 := by
    have h04 : (0 : α) ≤ 0.04 := by norm_num
    exact pow_le_pow_left₀ h04 hx1.le 2
  have hnum : 0 ≤ x ^ 2 * h := mul_nonneg (sq_nonneg x) h0.le
  have hdiv : x ^ 2 * h ≤ x ^ 2 * h / (1 - x * h) := by
    rw [le_div_iff₀ hden]
    nlinarith
  have hmul : (0.04 : α) ^ 2 * h ≤ x ^ 2 * h := mul_le_mul_of_nonneg_right hsq h0.le
  nlinarith

/-- One update step never removes an emitted spike. -/
theorem update_step_emitted_mono (res : α) (origin lag : Int) (n : Node α) :
    n.emitted.length ≤ (update_step res origin lag n).emitted.length := by
  simp only [update_step, synaptic_update, membrane_update, latency_branch, peak_check,
    Node.emit]
  split_ifs <;> simp

/-- The loop of update never removes an emitted spike. -/
theorem update_loop_emitted_mono (res : α) (origin : Int) (k : Nat) :
    ∀ (lag : Int) (n : Node α),
      n.emitted.length ≤ (update_loop res origin k lag n).emitted.length := by
  induction k with
  | zero => intro lag n; exact le_rfl
  | succ k ih =>
    intro lag n
    simp only [update_loop]
    exact le_trans (update_step_emitted_mono res origin lag n) (ih _ _)

/-- In the latency regime with `0 < dt < 1/6`, a step either emits a spike or
stays in the regime with the potential raised by at least
`15 * dt * 0.04 ^ 2`. -/
theorem update_step_latency_progress (res : α) (origin lag : Int) (n : Node α)
    (hr : n.S_.r_ref_ = 0) (hlo : 15.6 < n.S_.V_m_) (hhi : n.S_.V_m_ < 105)
    (h0 : 0 < n.P_.dt) (h6 : n.P_.dt < 1 / 6) :
    n.emitted.length < (update_step res origin lag n).emitted.length ∨
    ((update_step res origin lag n).emitted = n.emitted ∧
      (update_step res origin lag n).S_.r_ref_ = 0 ∧
      15.6 < (update_step res origin lag n).S_.V_m_ ∧
      (update_step res origin lag n).S_.V_m_ < 105 ∧
      n.S_.V_m_ + 15 * n.P_.dt * 0.04 ^ 2 ≤ (update_step res origin lag n).S_.V_m_) := by
  obtain ⟨-, hinc⟩ := latency_arith n.S_.V_m_ n.P_.dt hlo hhi h0 h6
  by_cases hc : n.S_.V_m_ + ((n.S_.V_m_ / 15 - 1) ^ 2 * n.P_.dt)
      / (1 - (n.S_.V_m_ / 15 - 1) * n.P_.dt) * 15 ≥ 105
  · left
    rw [(update_step_latency_spike res origin lag n hr hlo hhi hc).2.2.1]
    simp
  · right
    obtain ⟨a, b, c, -⟩ := update_step_latency_no_spike res origin lag n hr hlo hhi
      (lt_of_not_ge hc)
    have hpos : 0 < 15 * n.P_.dt * (0.04 : α) ^ 2 := by
      have : (0 : α) < 0.04 ^ 2 := by norm_num
      exact mul_pos (mul_pos (by norm_num) h0) this
    refine ⟨c, b, ?_, ?_, ?_⟩
    · rw [a]; linarith
    · rw [a]; exact lt_of_not_ge hc
    · rw [a]; exact hinc

/-- In the latency regime with `0 < dt < 1/6`, `m` steps of the loop either
emit a spike or stay in the regime with the potential raised by at least
`m * (15 * dt * 0.04 ^ 2)`. -/
theorem update_loop_latency_progress (res : α) (origin : Int) (m : Nat) :
    ∀ (lag : Int) (n : Node α), n.S_.r_ref_ = 0 → 15.6 < n.S_.V_m_ → n.S_.V_m_ < 105 →
      0 < n.P_.dt → n.P_.dt < 1 / 6 →
      n.emitted.length < (update_loop res origin m lag n).emitted.length ∨
      ((update_loop res origin m lag n).emitted = n.emitted ∧
        (update_loop res origin m lag n).S_.r_ref_ = 0 ∧
        15.6 < (update_loop res origin m lag n).S_.V_m_ ∧
        (update_loop res origin m lag n).S_.V_m_ < 105 ∧
        n.S_.V_m_ + m * (15 * n.P_.dt * 0.04 ^ 2)
          ≤ (update_loop res origin m lag n).S_.V_m_) := by
  induction m with
  | zero =>
    intro lag n hr hlo hhi _ _
    right
    exact ⟨rfl, hr, hlo, hhi, by simp [update_loop]⟩
  | succ m ih =>
    intro lag n hr hlo hhi h0 h6
    simp only [update_loop]
    have hP := (update_step_frame res origin lag n).1
    rcases update_step_latency_progress res origin lag n hr hlo hhi h0 h6 with hs | hs
    · left
      exact lt_of_lt_of_le hs (update_loop_emitted_mono res origin m _ _)
    · obtain ⟨e1, r1, lo1, hi1, inc1⟩ := hs
      rcases ih (lag + 1) (update_step res origin lag n) r1 lo1 hi1
        (by rw [hP]; exact h0) (by rw [hP]; exact h6) with hl | hl
      · left
        rw [e1] at hl
        exact hl
      · right
        obtain ⟨e2, r2, lo2, hi2, inc2⟩ := hl
        rw [hP] at inc2
        refine ⟨e2.trans e1, r2, lo2, hi2, ?_⟩
        push_cast
        linarith

end LatencyEscape

section LatencyEscapeRun

variable {α : Type} [LinearOrderedField α] [FloorRing α]

/-- A run never removes an emitted spike. -/
theorem run_emitted_mono (exp : α → α) (res : α) (ops : List (Op α)) :
    ∀ (n n1 : Node α), run exp res ops n = some n1 →
      n.emitted.length ≤ n1.emitted.length := by
  induction ops with
  | nil =>
    intro n n1 h
    simp only [run, Option.some.injEq] at h
    subst h
    exact le_rfl
  | cons op ops ih =>
    intro n n1 h
    cases op with
    | update origin from_ to_ =>
      simp only [run, update] at h
      exact le_trans (update_loop_emitted_mono res origin _ _ _) (ih _ n1 h)
    | spike e =>
      simp only [run] at h
      cases hs : handle_spike exp e n with
      | none => rw [hs] at h; cases h
      | some n2 =>
        rw [hs] at h
        simp only at h
        have f := handle_spike_frame exp e n n2 hs
        have := ih n2 n1 h
        rw [f.2.2.1] at this
        exact this
    | current e =>
      simp only [run] at h
      have f := handle_current_frame e n
      have := ih _ n1 h
      rw [f.2.2.2.1] at this
      exact this

/-- From the latency regime with `0 < dt < 1/6`, a run that performs at
least `K` update steps, where `K` steps of the minimal rise reach 105, emits
a spike, whatever events it delivers. -/
theorem run_escapes_latency (exp : α → α) (res : α) (ops : List (Op α)) :
    ∀ (K : Nat) (n n1 : Node α), n.S_.r_ref_ = 0 → 15.6 < n.S_.V_m_ →
      n.S_.V_m_ < 105 → 0 < n.P_.dt → n.P_.dt < 1 / 6 →
      105 ≤ n.S_.V_m_ + K * (15 * n.P_.dt * 0.04 ^ 2) →
      K ≤ totalSteps ops → run exp res ops n = some n1 →
      n.emitted.length < n1.emitted.length := by
  induction ops with
  | nil =>
    intro K n n1 _ _ hhi _ _ hK hsteps _
    have : K = 0 := by simpa [totalSteps] using hsteps
    subst this
    simp only [Nat.cast_zero, zero_mul, add_zero] at hK
    exact absurd hhi (not_lt.mpr hK)
  | cons op ops ih =>
    intro K n n1 hr hlo hhi h0 h6 hK hsteps h
    rw [totalSteps_cons] at hsteps
    cases op with
    | update origin from_ to_ =>
      simp only [Op.steps] at hsteps
      simp only [run, update] at h
      have hP := (update_loop_frame res origin (to_ - from_).toNat from_ n).1
      rcases update_loop_latency_progress res origin (to_ - from_).toNat from_ n
        hr hlo hhi h0 h6 with hs | hs
      · exact lt_of_lt_of_le hs (run_emitted_mono exp res ops _ n1 h)
      · obtain ⟨e1, r1, lo1, hi1, inc1⟩ := hs
        have hdelta : 0 ≤ 15 * n.P_.dt * (0.04 : α) ^ 2 := by
          have : (0 : α) ≤ 0.04 ^ 2 := by norm_num
          exact mul_nonneg (mul_nonneg (by norm_num) h0.le) this
        have hcast : (K : α) ≤ ((to_ - from_).toNat : α) + ((K - (to_ - from_).toNat : Nat) : α) := by
          have : K ≤ (to_ - from_).toNat + (K - (to_ - from_).toNat) := by omega
          exact_mod_cast this
        have := ih (K - (to_ - from_).toNat) _ n1 r1 lo1 hi1 (by rw [hP]; exact h0)
          (by rw [hP]; exact h6)
          (by
            rw [hP]
            have h1 := mul_le_mul_of_nonneg_right hcast hdelta
            linarith)
          (by omega) h
        rw [e1] at this
        exact this
    | spike e =>
      simp only [Op.steps, Nat.zero_add] at hsteps
      simp only [run] at h
      cases hs : handle_spike exp e n with
      | none => rw [hs] at h; cases h
      | some n2 =>
        rw [hs] at h
        simp only at h
        have f := handle_spike_frame exp e n n2 hs
        have := ih K n2 n1 (by rw [f.2.2.2.2.2.1]; exact hr) (by rw [f.2.2.2.2.1]; exact hlo)
          (by rw [f.2.2.2.2.1]; exact hhi) (by rw [f.1]; exact h0) (by rw [f.1]; exact h6)
          (by rw [f.2.2.2.2.1, f.1]; exact hK) hsteps h
        rw [f.2.2.1] at this
        exact this
    | current e =>
      simp only [Op.steps, Nat.zero_add] at hsteps
      simp only [run] at h
      have f := handle_current_frame e n
      have := ih K _ n1 (by rw [f.2.2.1]; exact hr) (by rw [f.2.2.1]; exact hlo)
        (by rw [f.2.2.1]; exact hhi) (by rw [f.1]; exact h0) (by rw [f.1]; exact h6)
        (by rw [f.2.2.1, f.1]; exact hK) hsteps h
      rw [f.2.2.2.1] at this
      exact this

/-- C24: for every step size `0 < h < 1/6` and every `V` with
`15.6 < V < 105`, the denominator `1 - (V/15 - 1) * h` is positive and the
latency update raises `V` by at least `15 * h * 0.04 ^ 2`. Hence for every
active node with `15.6 < V_m_ < 105` and `0 < dt < 1/6` there is a number `K`
of steps such that every run performing at least `K` update steps has
emitted a spike, whatever currents and events arrive; the run returns a node
whenever `t_lastspike_` has an entry for every modulator. -/
theorem latency_escape (exp : α → α) (res : α) (n : Node α)
    (hr : n.S_.r_ref_ = 0) (hlo : 15.6 < n.S_.V_m_) (hhi : n.S_.V_m_ < 105)
    (h0 : 0 < n.P_.dt) (h6 : n.P_.dt < 1 / 6) :
    (∀ V h : α, 15.6 < V → V < 105 → 0 < h → h < 1 / 6 →
      0 < 1 - (V / 15 - 1) * h ∧
      V + 15 * h * 0.04 ^ 2 ≤ V + ((V / 15 - 1) ^ 2 * h / (1 - (V / 15 - 1) * h)) * 15) ∧
    (∃ K : Nat, ∀ (ops : List (Op α)) (n1 : Node α), K ≤ totalSteps ops →
      run exp res ops n = some n1 → n.emitted.length < n1.emitted.length) ∧
    (∀ ops : List (Op α), n.P_.stimulator_.length ≤ n.S_.t_lastspike_.length →
      ∃ n1, run exp res ops n = some n1) := by
  refine ⟨fun V h a b c d => latency_arith V h a b c d, ?_, fun ops => run_total exp res ops n⟩
  have hdelta : 0 < 15 * n.P_.dt * (0.04 : α) ^ 2 := by
    have : (0 : α) < 0.04 ^ 2 := by norm_num
    exact mul_pos (mul_pos (by norm_num) h0) this
  obtain ⟨K, hK⟩ := exists_nat_ge ((105 - n.S_.V_m_) / (15 * n.P_.dt * (0.04 : α) ^ 2))
  refine ⟨K, fun ops n1 hsteps hrun => ?_⟩
  refine run_escapes_latency exp res ops K n n1 hr hlo hhi h0 h6 ?_ hsteps hrun
  rw [div_le_iff₀ hdelta] at hK
  linarith

end LatencyEscapeRun

/-- C24 (witness): a node with `V_m_ = 100` and `dt = 1/10`. -/
theorem latency_escape_witness :
    ∃ K : Nat, ∀ (ops : List (Op ℚ)) (n1 : Node ℚ), K ≤ totalSteps ops →
      run expStandIn (1 / 10 : ℚ) ops (chargedNode 100 2) = some n1 →
      (chargedNode (100 : ℚ) 2).emitted.length < n1.emitted.length :=
  (latency_escape expStandIn (1 / 10 : ℚ) (chargedNode 100 2)
    (by simp [chargedNode, State_.default])
    (by norm_num [chargedNode, State_.default])
    (by norm_num [chargedNode, State_.default])
    (by norm_num [chargedNode, restNode])
    (by norm_num [chargedNode, restNode])).2.1

/-! ## C25: the sign of one IE contribution -/

/-- C25: over the reals with the real exponential, for `tau > 0` and
`lambda > 0`, the net change that one visited history entry `h` makes to the
enhancement in the loop of `handle( SpikeEvent& )` is
`lambda * (exp((last - h)/tau) - exp((h - t_spike)/tau))`. It is positive
exactly when `h < (last + t_spike)/2`, zero exactly at the midpoint and
negative exactly beyond it, and for `last < h <= t_spike` its absolute value
is less than `lambda`. -/
theorem ie_contribution_sign (tau lambda last t_spike h enh : ℝ) (pred : ℝ → Bool)
    (htau : 0 < tau) (hlam : 0 < lambda) :
    ie_while Real.exp tau lambda last t_spike pred [h] enh - enh
      = lambda * (Real.exp ((last - h) / tau) - Real.exp ((h - t_spike) / tau)) ∧
    (0 < ie_while Real.exp tau lambda last t_spike pred [h] enh - enh
      ↔ h < (last + t_spike) / 2) ∧
    (ie_while Real.exp tau lambda last t_spike pred [h] enh - enh = 0
      ↔ h = (last + t_spike) / 2) ∧
    (ie_while Real.exp tau lambda last t_spike pred [h] enh - enh < 0
      ↔ (last + t_spike) / 2 < h) ∧
    (last < h → h ≤ t_spike →
      |ie_while Real.exp tau lambda last t_spike pred [h] enh - enh| < lambda) := by
  have hval : ie_while Real.exp tau lambda last t_spike pred [h] enh - enh
      = lambda * (Real.exp ((last - h) / tau) - Real.exp ((h - t_spike) / tau)) := by
    rw [ie_while]
    simp only [find_if]
    rw [ie_while]
    ring
  have hcmp : (last - h) / tau < (h - t_spike) / tau ↔ (last + t_spike) / 2 < h := by
    rw [div_lt_div_iff_of_pos_right htau]
    constructor <;> intro hh <;> linarith
  have hcmp2 : (h - t_spike) / tau < (last - h) / tau ↔ h < (last + t_spike) / 2 := by
    rw [div_lt_div_iff_of_pos_right htau]
    constructor <;> intro hh <;> linarith
  have hcmp3 : (last - h) / tau = (h - t_spike) / tau ↔ h = (last + t_spike) / 2 := by
    constructor
    · intro hh
      have h1 := congrArg (fun x => x * tau) hh
      simp only [div_mul_cancel₀ _ (ne_of_gt htau)] at h1
      linarith
    · intro hh
      rw [hh]
      congr 1
      ring
  rw [hval]
  refine ⟨rfl, ?_, ?_, ?_, ?_⟩
  · rw [mul_pos_iff_of_pos_left hlam, sub_pos, Real.exp_lt_exp]
    exact hcmp2
  · rw [mul_eq_zero, sub_eq_zero]
    constructor
    · rintro (hz | hz)
      · exact absurd hz (ne_of_gt hlam)
      · exact hcmp3.mp (Real.exp_injective hz)
    · intro hh
      right
      rw [hcmp3.mpr hh]
  · rw [mul_neg_iff]
    constructor
    · rintro (⟨-, hz⟩ | ⟨hz, -⟩)
      · rw [sub_neg, Real.exp_lt_exp] at hz
        exact hcmp.mp hz
      · exact absurd hz (not_lt.mpr hlam.le)
    · intro hh
      left
      exact ⟨hlam, by rw [sub_neg, Real.exp_lt_exp]; exact hcmp.mpr hh⟩
  · intro h1 h2
    have ha : Real.exp ((last - h) / tau) < 1 := by
      have hneg : (last - h) / tau < 0 := by
        apply div_neg_of_neg_of_pos _ htau
        linarith
      have := Real.exp_lt_exp.mpr hneg
      rwa [Real.exp_zero] at this
    have hb : Real.exp ((h - t_spike) / tau) ≤ 1 := by
      have hnp : (h - t_spike) / tau ≤ 0 := by
        apply div_nonpos_of_nonpos_of_nonneg _ htau.le
        linarith
      have := Real.exp_le_exp.mpr hnp
      rwa [Real.exp_zero] at this
    have ha0 := Real.exp_pos ((last - h) / tau)
    have hb0 := Real.exp_pos ((h - t_spike) / tau)
    rw [abs_mul, abs_of_pos hlam]
    have : |Real.exp ((last - h) / tau) - Real.exp ((h - t_spike) / tau)| < 1 := by
      rw [abs_lt]
      constructor <;> linarith
    calc lambda * |Real.exp ((last - h) / tau) - Real.exp ((h - t_spike) / tau)|
        < lambda * 1 := mul_lt_mul_of_pos_left this hlam
      _ = lambda := mul_one _

/-- C25 (witness): scenario D, entry 5 between `last = 0` and
`t_spike = 20` with `tau = 12.5` and `lambda = 0.0001`: the entry lies before
the midpoint 10, so its contribution is positive, and it is less than
`lambda`. -/
theorem ie_contribution_sign_witness :
    0 < ie_while Real.exp (25 / 2) (1 / 10000) 0 20 (fun _ => true) [5] 1 - 1 ∧
    |ie_while Real.exp (25 / 2) (1 / 10000) 0 20 (fun _ => true) [5] 1 - 1| < 1 / 10000 :=
  have h := ie_contribution_sign (25 / 2) (1 / 10000) 0 20 5 1 (fun _ => true)
    (by norm_num) (by norm_num)
  ⟨h.2.1.mpr (by norm_num), h.2.2.2.2 (by norm_num) (by norm_num)⟩

end LIFL
